import Mathlib

/-!
Shallow embedding of the SWAPS on-chain trade-loop program
(`src/backend/programs/swap/src/instruction.rs`,
`src/backend/programs/docker_deploy/swap/src/state.rs`,
`src/backend/programs/docker_deploy/full_contract/src/processor.rs`),
together with proofs about its specification claims.

Machine integers are modeled as `Fin` types (`Fin 256` for `u8`,
`Fin (2 ^ 32)` for `u32`, `Fin (2 ^ 64)` for `u64`); byte buffers are
`List (Fin 256)`.  Fallible code returns `Except`.  Rust slice indexing
that can panic is modeled explicitly: an out-of-bounds access yields the
distinguished outcome `DecodeFailure.panicked` instead of a clean error.
-/

namespace Swaps

/-- Bytes are modeled as naturals below 256 (Rust `u8`). -/
abbrev Byte := Fin 256

/-- Unsigned 32-bit integers (Rust `u32`). -/
abbrev U32 := Fin (2 ^ 32)

/-- Unsigned 64-bit integers (Rust `u64`). -/
abbrev U64 := Fin (2 ^ 64)

/-- Raw 32-byte arrays (Rust `[u8; 32]`), used for trade identifiers. -/
abbrev Bytes32 := Mathlib.Vector Byte 32

/-- Solana public keys are 32 raw bytes (`solana_program::pubkey::Pubkey`). -/
abbrev Pubkey := Bytes32

/-- Decidable equality of `Except` results, for evaluating handlers on
concrete inputs. -/
instance {ε α : Type} [DecidableEq ε] [DecidableEq α] : DecidableEq (Except ε α) := fun a b =>
  match a, b with
  | .ok x, .ok y => decidable_of_iff (x = y) (by simp)
  | .error e, .error f => decidable_of_iff (e = f) (by simp)
  | .ok _, .error _ => isFalse (by simp)
  | .error _, .ok _ => isFalse (by simp)

/-- Truncate a natural to a byte, as Rust `as u8` casts do. -/
def byteOfNat (n : Nat) : Byte := ⟨n % 256, Nat.mod_lt _ (by decide)⟩

/-- Little-endian byte encoding of `n` on `k` bytes (`to_le_bytes`). -/
def natToLE : Nat → Nat → List Byte
  | 0, _ => []
  | k + 1, n => byteOfNat n :: natToLE k (n / 256)

/-- Little-endian byte decoding (`from_le_bytes`). -/
def leToNat : List Byte → Nat
  | [] => 0
  | b :: r => b.val + 256 * leToNat r

theorem natToLE_length (k n : Nat) : (natToLE k n).length = k := by
  induction k generalizing n with
  | zero => rfl
  | succ k ih => simp [natToLE, ih]

theorem leToNat_natToLE (k n : Nat) : leToNat (natToLE k n) = n % 256 ^ k := by
  induction k generalizing n with
  | zero => simp [natToLE, leToNat, Nat.mod_one]
  | succ k ih =>
      simp only [natToLE, leToNat, ih, byteOfNat]
      rw [pow_succ, mul_comm (256 ^ k) 256, Nat.mod_mul]

theorem leToNat_lt (l : List Byte) : leToNat l < 256 ^ l.length := by
  induction l with
  | nil => simp [leToNat]
  | cons b r ih =>
      simp only [leToNat, List.length_cons, pow_succ]
      have hb : b.val < 256 := b.isLt
      calc b.val + 256 * leToNat r
          < 256 + 256 * leToNat r := by omega
        _ = 256 * (leToNat r + 1) := by ring
        _ ≤ 256 * 256 ^ r.length := by
            have : leToNat r + 1 ≤ 256 ^ r.length := ih
            exact Nat.mul_le_mul_left _ this
        _ = 256 ^ r.length * 256 := by ring

/-!
## Instruction codec (`src/backend/programs/swap/src/instruction.rs`)
-/

/-- The nine logical commands (`enum SwapInstruction`), in Rust declaration
order.  Field types follow the source: `u8` indices, 32-byte keys,
`Vec<Pubkey>` mint lists, `u64` timeouts, `u32` versions, `Option` fields. -/
inductive SwapInstruction where
  | InitializeTradeLoop (trade_id : Bytes32) (step_count : Byte) (timeout_seconds : U64)
  | AddTradeStep (step_index : Byte) (to_ : Pubkey) (nft_mints : List Pubkey)
  | ApproveTradeStep (step_index : Byte)
  | ExecuteTradeStep (step_index : Byte)
  | ExecuteFullTradeLoop
  | CancelTradeLoop
  | InitializeProgramConfig (governance : Option Pubkey)
  | UpdateProgramConfig (new_upgrade_authority : Option Pubkey)
      (new_governance : Option Pubkey) (new_paused_state : Option Bool)
  | UpgradeProgram (new_program_version : U32)
deriving DecidableEq

/-- Outcome of a decode attempt.  `invalidData` models the explicit
`SwapError::InvalidInstructionData` returns; `panicked` models a Rust panic
caused by an out-of-bounds slice or index (`rest[..32]`, `rest[0]`, ...),
which the Solana runtime surfaces as an abort, not as a returned error. -/
inductive DecodeFailure where
  | invalidData
  | panicked
deriving DecidableEq

/-- Rust `l[i]` on a slice: the byte, or a panic when out of bounds. -/
def idxByte (l : List Byte) (i : Nat) : Except DecodeFailure Byte :=
  if h : i < l.length then .ok (l.get ⟨i, h⟩) else .error .panicked

/-- Rust `l[a..b]` on a slice: the sub-slice, or a panic when out of bounds. -/
def sliceRange (l : List Byte) (a b : Nat) : Except DecodeFailure (List Byte) :=
  if a ≤ b ∧ b ≤ l.length then .ok ((l.drop a).take (b - a)) else .error .panicked

/-- Rust `l[a..]` on a slice: the tail, or a panic when out of bounds. -/
def sliceFrom (l : List Byte) (a : Nat) : Except DecodeFailure (List Byte) :=
  if a ≤ l.length then .ok (l.drop a) else .error .panicked

/-- Rust `<[u8; 32]>::try_into` followed by the source `map_err`: a clean
`InvalidInstructionData` error when the length is not 32. -/
def toBytes32 (l : List Byte) : Except DecodeFailure Bytes32 :=
  if h : l.length = 32 then .ok ⟨l, h⟩ else .error .invalidData

/-- Rust `Pubkey::new(slice)`, which panics when the slice is not 32 bytes. -/
def pubkeyNew (l : List Byte) : Except DecodeFailure Pubkey :=
  if h : l.length = 32 then .ok ⟨l, h⟩ else .error .panicked

/-- Rust `u64::from_le_bytes(l.try_into().map_err(..)?)`. -/
def u64FromLE (l : List Byte) : Except DecodeFailure U64 :=
  if h : l.length = 8 then
    .ok ⟨leToNat l, by have := leToNat_lt l; rw [h] at this; exact lt_of_lt_of_le this (by norm_num)⟩
  else .error .invalidData

/-- Rust `u32::from_le_bytes(l.try_into().map_err(..)?)`. -/
def u32FromLE (l : List Byte) : Except DecodeFailure U32 :=
  if h : l.length = 4 then
    .ok ⟨leToNat l, by have := leToNat_lt l; rw [h] at this; exact lt_of_lt_of_le this (by norm_num)⟩
  else .error .invalidData

/-- The read loop of `unpack_pubkey_vector`: read `count` keys from absolute
offsets `start, start + 32, ...` of `input`. -/
def readPubkeys : Nat → Nat → List Byte → Except DecodeFailure (List Pubkey)
  | 0, _, _ => .ok []
  | count + 1, start, input => do
      let seg ← sliceRange input start (start + 32)
      let pk ← pubkeyNew seg
      let rest ← readPubkeys count (start + 32) input
      .ok (pk :: rest)

/-- `SwapInstruction::unpack_pubkey_vector`: `input[0]` is the count (a panic
on an empty slice), then an explicit bounds check, then the keys. -/
def unpack_pubkey_vector (input : List Byte) : Except DecodeFailure (List Pubkey) := do
  let c ← idxByte input 0
  if input.length < 1 + c.val * 32 then .error .invalidData
  else readPubkeys c.val 1 input

/-- `SwapInstruction::unpack_legacy`: tag byte then fixed-offset fields, with
Rust slice indexing (and thus its panics) modeled faithfully. -/
def unpack_legacy (input : List Byte) : Except DecodeFailure SwapInstruction :=
  match input with
  | [] => .error .invalidData
  | tag :: rest =>
    match tag.val with
    | 0 => do
        let tidB ← sliceRange rest 0 32
        let trade_id ← toBytes32 tidB
        let step_count ← idxByte rest 32
        let tsB ← sliceRange rest 33 41
        let timeout_seconds ← u64FromLE tsB
        .ok (.InitializeTradeLoop trade_id step_count timeout_seconds)
    | 1 => do
        let step_index ← idxByte rest 0
        let toB ← sliceRange rest 1 33
        let to_ ← pubkeyNew toB
        let tl ← sliceFrom rest 33
        let nft_mints ← unpack_pubkey_vector tl
        .ok (.AddTradeStep step_index to_ nft_mints)
    | 2 => do
        let step_index ← idxByte rest 0
        .ok (.ApproveTradeStep step_index)
    | 3 => do
        let step_index ← idxByte rest 0
        .ok (.ExecuteTradeStep step_index)
    | 4 => .ok .ExecuteFullTradeLoop
    | 5 => .ok .CancelTradeLoop
    | 6 => do
        let vB ← sliceRange rest 0 4
        let new_program_version ← u32FromLE vB
        .ok (.UpgradeProgram new_program_version)
    | 7 => do
        let hasGov ← idxByte rest 0
        if hasGov.val ≠ 0 then do
          let gB ← sliceRange rest 1 33
          let g ← pubkeyNew gB
          .ok (.InitializeProgramConfig (some g))
        else
          .ok (.InitializeProgramConfig none)
    | 8 => do
        let hasAuth ← idxByte rest 0
        let ao ← (if hasAuth.val ≠ 0 then do
            let aB ← sliceRange rest 1 33
            let a ← pubkeyNew aB
            (.ok (some a, 33) : Except DecodeFailure (Option Pubkey × Nat))
          else .ok (none, 1))
        let hasGov ← idxByte rest ao.2
        let go ← (if hasGov.val ≠ 0 then do
            let gB ← sliceRange rest (ao.2 + 1) (ao.2 + 33)
            let g ← pubkeyNew gB
            (.ok (some g, ao.2 + 33) : Except DecodeFailure (Option Pubkey × Nat))
          else .ok (none, ao.2 + 1))
        let hasPaused ← idxByte rest go.2
        let po ← (if hasPaused.val ≠ 0 then do
            let pB ← idxByte rest (go.2 + 1)
            (.ok (some (pB.val ≠ 0)) : Except DecodeFailure (Option Bool))
          else .ok none)
        .ok (.UpdateProgramConfig ao.1 go.1 po)
    | _ => .error .invalidData

/-!
### Versioned (Borsh) encoding

Borsh serializes an enum as a `u8` variant index (declaration order) followed
by the fields; `Vec<T>` as a `u32` little-endian length followed by the
elements; `Option<T>` as a `u8` flag then the payload; `bool` as one byte that
must be 0 or 1; integers little-endian; `[u8; 32]` and `Pubkey` as raw bytes.
`try_from_slice` additionally demands that the whole input be consumed.
-/

/-- `enum InstructionVersion { Legacy = 0, V1 = 1 }`. -/
inductive InstructionVersion where
  | Legacy
  | V1
deriving DecidableEq

/-- `struct VersionedInstruction { version, instruction }`. -/
structure VersionedInstruction where
  version : InstructionVersion
  instruction : SwapInstruction
deriving DecidableEq

/-- Borsh serialization of `Option<Pubkey>`. -/
def serOptPubkey : Option Pubkey → List Byte
  | none => [byteOfNat 0]
  | some k => byteOfNat 1 :: k.toList

/-- Borsh serialization of `Option<bool>`. -/
def serOptBool : Option Bool → List Byte
  | none => [byteOfNat 0]
  | some b => [byteOfNat 1, if b then byteOfNat 1 else byteOfNat 0]

/-- Borsh serialization of `SwapInstruction` (the body of `try_to_vec`). -/
def serInstr : SwapInstruction → List Byte
  | .InitializeTradeLoop trade_id step_count timeout_seconds =>
      byteOfNat 0 :: (trade_id.toList ++ [step_count] ++ natToLE 8 timeout_seconds.val)
  | .AddTradeStep step_index to_ nft_mints =>
      byteOfNat 1 :: step_index :: (to_.toList ++ natToLE 4 nft_mints.length ++
        (nft_mints.map Mathlib.Vector.toList).flatten)
  | .ApproveTradeStep step_index => [byteOfNat 2, step_index]
  | .ExecuteTradeStep step_index => [byteOfNat 3, step_index]
  | .ExecuteFullTradeLoop => [byteOfNat 4]
  | .CancelTradeLoop => [byteOfNat 5]
  | .InitializeProgramConfig governance => byteOfNat 6 :: serOptPubkey governance
  | .UpdateProgramConfig a g p =>
      byteOfNat 7 :: (serOptPubkey a ++ serOptPubkey g ++ serOptBool p)
  | .UpgradeProgram v => byteOfNat 8 :: natToLE 4 v.val

/-- Borsh can serialize the command: every `Vec` length must fit in `u32`
(otherwise `try_to_vec` errors and the source `.unwrap()` panics). -/
def instrSerializable : SwapInstruction → Bool
  | .AddTradeStep _ _ nft_mints => decide (nft_mints.length < 2 ^ 32)
  | _ => true

/-- `SwapInstruction::pack_versioned`: the sentinel byte 255, the version byte
for `V1`, then the Borsh payload; a panic (from the source `.unwrap()`) when
Borsh cannot serialize the command. -/
def pack_versioned (c : SwapInstruction) : Except DecodeFailure (List Byte) :=
  if instrSerializable c then .ok (byteOfNat 255 :: byteOfNat 1 :: serInstr c)
  else .error .panicked

/-- `SwapInstruction::pack_legacy`: tag byte then fixed-offset fields.  The
mint count is written with `len() as u8`, a truncating cast. -/
def pack_legacy : SwapInstruction → List Byte
  | .InitializeTradeLoop trade_id step_count timeout_seconds =>
      byteOfNat 0 :: (trade_id.toList ++ [step_count] ++ natToLE 8 timeout_seconds.val)
  | .AddTradeStep step_index to_ nft_mints =>
      byteOfNat 1 :: step_index :: (to_.toList ++ [byteOfNat nft_mints.length] ++
        (nft_mints.map Mathlib.Vector.toList).flatten)
  | .ApproveTradeStep step_index => [byteOfNat 2, step_index]
  | .ExecuteTradeStep step_index => [byteOfNat 3, step_index]
  | .ExecuteFullTradeLoop => [byteOfNat 4]
  | .CancelTradeLoop => [byteOfNat 5]
  | .UpgradeProgram v => byteOfNat 6 :: natToLE 4 v.val
  | .InitializeProgramConfig governance => byteOfNat 7 :: serOptPubkey governance
  | .UpdateProgramConfig a g p =>
      byteOfNat 8 :: (serOptPubkey a ++ serOptPubkey g ++ serOptBool p)

/-- Borsh prefix decoder for one byte. -/
def deByte : List Byte → Option (Byte × List Byte)
  | [] => none
  | b :: r => some (b, r)

/-- Borsh prefix decoder for a 32-byte key. -/
def dePubkey (l : List Byte) : Option (Pubkey × List Byte) :=
  if h : 32 ≤ l.length then
    some (⟨l.take 32, by simp [List.length_take]; omega⟩, l.drop 32)
  else none

/-- Borsh prefix decoder for a little-endian `u32`. -/
def deU32 (l : List Byte) : Option (U32 × List Byte) :=
  if h : 4 ≤ l.length then
    some (⟨leToNat (l.take 4), by
      have := leToNat_lt (l.take 4)
      rw [List.length_take, Nat.min_eq_left h] at this
      exact lt_of_lt_of_le this (by norm_num)⟩, l.drop 4)
  else none

/-- Borsh prefix decoder for a little-endian `u64`. -/
def deU64 (l : List Byte) : Option (U64 × List Byte) :=
  if h : 8 ≤ l.length then
    some (⟨leToNat (l.take 8), by
      have := leToNat_lt (l.take 8)
      rw [List.length_take, Nat.min_eq_left h] at this
      exact lt_of_lt_of_le this (by norm_num)⟩, l.drop 8)
  else none

/-- Borsh prefix decoder for `bool`: the byte must be 0 or 1. -/
def deBool : List Byte → Option (Bool × List Byte)
  | [] => none
  | b :: r =>
    if b.val = 0 then some (false, r)
    else if b.val = 1 then some (true, r)
    else none

/-- Borsh prefix decoder for `Option<Pubkey>`. -/
def deOptPubkey (l : List Byte) : Option (Option Pubkey × List Byte) :=
  match deByte l with
  | none => none
  | some (b, r) =>
    if b.val = 0 then some (none, r)
    else if b.val = 1 then (dePubkey r).map (fun x => (some x.1, x.2))
    else none

/-- Borsh prefix decoder for `Option<bool>`. -/
def deOptBool (l : List Byte) : Option (Option Bool × List Byte) :=
  match deByte l with
  | none => none
  | some (b, r) =>
    if b.val = 0 then some (none, r)
    else if b.val = 1 then (deBool r).map (fun x => (some x.1, x.2))
    else none

/-- Borsh prefix decoder for `count` consecutive keys. -/
def dePubkeyList : Nat → List Byte → Option (List Pubkey × List Byte)
  | 0, l => some ([], l)
  | count + 1, l => do
      let (p, r) ← dePubkey l
      let (ps, r2) ← dePubkeyList count r
      pure (p :: ps, r2)

/-- Borsh prefix decoder for `Vec<Pubkey>`. -/
def deVecPubkey (l : List Byte) : Option (List Pubkey × List Byte) := do
  let (n, r) ← deU32 l
  dePubkeyList n.val r

/-- Borsh prefix decoder for `SwapInstruction`. -/
def deInstr (l : List Byte) : Option (SwapInstruction × List Byte) := do
  let (tag, r) ← deByte l
  match tag.val with
  | 0 => do
      let (trade_id, r1) ← dePubkey r
      let (step_count, r2) ← deByte r1
      let (timeout_seconds, r3) ← deU64 r2
      pure (.InitializeTradeLoop trade_id step_count timeout_seconds, r3)
  | 1 => do
      let (step_index, r1) ← deByte r
      let (to_, r2) ← dePubkey r1
      let (nft_mints, r3) ← deVecPubkey r2
      pure (.AddTradeStep step_index to_ nft_mints, r3)
  | 2 => do
      let (step_index, r1) ← deByte r
      pure (.ApproveTradeStep step_index, r1)
  | 3 => do
      let (step_index, r1) ← deByte r
      pure (.ExecuteTradeStep step_index, r1)
  | 4 => pure (.ExecuteFullTradeLoop, r)
  | 5 => pure (.CancelTradeLoop, r)
  | 6 => do
      let (governance, r1) ← deOptPubkey r
      pure (.InitializeProgramConfig governance, r1)
  | 7 => do
      let (a, r1) ← deOptPubkey r
      let (g, r2) ← deOptPubkey r1
      let (p, r3) ← deOptBool r2
      pure (.UpdateProgramConfig a g p, r3)
  | 8 => do
      let (v, r1) ← deU32 r
      pure (.UpgradeProgram v, r1)
  | _ => none

/-- Borsh prefix decoder for `VersionedInstruction`. -/
def deVersioned (l : List Byte) : Option (VersionedInstruction × List Byte) := do
  let (vb, r) ← deByte l
  let v ← (match vb.val with
    | 0 => some InstructionVersion.Legacy
    | 1 => some InstructionVersion.V1
    | _ => none)
  let (ins, r2) ← deInstr r
  pure (⟨v, ins⟩, r2)

/-- `SwapInstruction::unpack_versioned`: Borsh `try_from_slice`, which accepts
only a parse that consumes the entire input; any failure is mapped to the
clean `InvalidInstructionData` error. -/
def unpack_versioned (input : List Byte) : Except DecodeFailure SwapInstruction :=
  match deVersioned input with
  | some (v, []) => .ok v.instruction
  | _ => .error .invalidData

/-- `SwapInstruction::unpack`: empty input is a clean error; an input of
length at least 2 starting with the sentinel byte 255 is versioned; anything
else falls back to the legacy decoder. -/
def unpack (input : List Byte) : Except DecodeFailure SwapInstruction :=
  match input with
  | [] => .error .invalidData
  | b :: rest =>
    if 2 ≤ (b :: rest).length ∧ b.val = 255 then unpack_versioned rest
    else unpack_legacy (b :: rest)

/-!
## Trade-loop state (`src/backend/programs/docker_deploy/swap/src/state.rs`)
-/

/-- `const MAX_PARTICIPANTS_PER_TRANSACTION: u8 = 11`. -/
def MAX_PARTICIPANTS_PER_TRANSACTION : Nat := 11

/-- `const MAX_TIMEOUT_SECONDS: u64 = 30 * 24 * 60 * 60`. -/
def MAX_TIMEOUT_SECONDS : Nat := 30 * 24 * 60 * 60

/-- `enum StepStatus { Created, Approved, Executed }`. -/
inductive StepStatus where
  | Created
  | Approved
  | Executed
deriving DecidableEq

/-- Numeric height of a status along `Created → Approved → Executed`, used to
state monotonicity. -/
def StepStatus.rank : StepStatus → Nat
  | .Created => 0
  | .Approved => 1
  | .Executed => 2

/-- `struct TradeStep` (`from_` and `to_` carry a trailing underscore because
`from` and `to` are reserved words in Lean). -/
structure TradeStep where
  from_ : Pubkey
  to_ : Pubkey
  nft_mints : List Pubkey
  status : StepStatus
deriving DecidableEq

/-- `struct TradeLoop`.  The `cap` field models `steps.capacity()`, the
construction-time step count: the source allocates `steps` with
`Vec::with_capacity(step_count)` at initialization and compares
`steps.capacity()` on later calls.  (`Vec::capacity` itself is a Rust
allocation property that borsh does not persist; following the data model of
the specification, which fixes the capacity at construction, we carry it as
an explicit persisted field.) -/
structure TradeLoop where
  is_initialized : Bool
  trade_id : Bytes32
  created_at : Nat
  expires_at : Nat
  steps : List TradeStep
  authority : Pubkey
  cap : Nat
deriving DecidableEq

/-- The all-zero public key, used only as the `List.getD` fallback where the
source indexes a vector after an explicit bounds check. -/
def pkZero : Pubkey := ⟨List.replicate 32 (0 : Byte), by simp⟩

/-- Fallback step for `List.getD` (never reached: every use follows a bounds
check, mirroring the source index operations). -/
def dummyStep : TradeStep := ⟨pkZero, pkZero, [], .Created⟩

/-- The adjacency loop of `verify_loop`: step `i` must send to the sender of
step `i + 1`. -/
def chainOk : List TradeStep → Bool
  | [] => true
  | [_] => true
  | a :: b :: r => (a.to_ == b.from_) && chainOk (b :: r)

/-- `TradeLoop::verify_loop`: non-empty, the last recipient is the first
sender, adjacent steps chain, and the `HashSet` of `from` keys has at least
two elements (modeled by `List.dedup`). -/
def TradeLoop.verify_loop (t : TradeLoop) : Bool :=
  match t.steps.head?, t.steps.getLast? with
  | some first, some last =>
      (last.to_ == first.from_) && chainOk t.steps &&
        decide (2 ≤ ((t.steps.map TradeStep.from_).dedup).length)
  | _, _ => false

/-- `TradeLoop::is_ready_for_execution`: every step `Approved`. -/
def TradeLoop.is_ready_for_execution (t : TradeLoop) : Bool :=
  t.steps.all (fun step => step.status == .Approved)

/-- `TradeLoop::is_expired`: `current_time >= expires_at`. -/
def TradeLoop.is_expired (t : TradeLoop) (current_time : Nat) : Bool :=
  decide (t.expires_at ≤ current_time)

/-!
## Processor (`src/backend/programs/docker_deploy/full_contract/src/processor.rs`)

Each handler is embedded from the point where the `TradeLoop` record has been
deserialized; the Solana account plumbing that precedes it (signer checks,
program-id checks of the token/system programs, PDA derivation) concerns
collaborator integrity, not the state machine, and is represented by the
handler receiving the authenticated caller keys directly.  External account
state read or mutated during a call (SPL mint and token accounts, transfer
outcomes) is passed in as explicit environment records.  Error constructors
beyond `error.rs` (`NotEnoughAccountKeys`, `TransferFailed`,
`CreateAccountFailed`) model the corresponding `ProgramError` outcomes of
`next_account_info`, `spl_token::transfer` and ATA creation. -/

/-- Errors visible to the embedding (`error.rs` plus runtime outcomes). -/
inductive SwapError where
  | InvalidInstructionData
  | NotRentExempt
  | InvalidAccountOwner
  | UninitializedAccount
  | IncorrectProgramId
  | InvalidAccountData
  | TradeLoopVerificationFailed
  | MissingApprovals
  | StepAlreadyExecuted
  | UpgradeAuthorityMismatch
  | InvalidProgramVersion
  | InsufficientFunds
  | InvalidMetadataAccount
  | TradeTimeoutExceeded
  | TooManyParticipants
  | CancellationDenied
  | NotEnoughAccountKeys
  | TransferFailed
  | CreateAccountFailed
deriving DecidableEq

/-- The fields of an SPL token account the handlers read after
`spl_token::state::Account::unpack`. -/
structure SplTokenAccount where
  owner : Pubkey
  mint : Pubkey
  amount : Nat
deriving DecidableEq

/-- Environment for one NFT of an `AddTradeStep` call: the mint account key
the caller supplied and the outcomes of the external verifications. -/
structure MintAccounts where
  mintKey : Pubkey
  metadataOk : Bool
  tokenProgramOwnedOk : Bool
  ataAddressOk : Bool
  unpackOk : Bool
  source : SplTokenAccount
deriving DecidableEq

/-- Per-NFT verification of `process_add_trade_step` (lines 174-211): mint
key match, `verify_nft_metadata`, `verify_token_account_owner`,
`verify_token_account_address`, then owner / mint / amount of the unpacked
source token account. -/
def checkAddNft (from_ : Pubkey) (nft_mint : Pubkey) (a : MintAccounts) :
    Except SwapError Unit :=
  if a.mintKey ≠ nft_mint then .error .InvalidAccountData
  else if ¬a.metadataOk then .error .InvalidMetadataAccount
  else if ¬a.tokenProgramOwnedOk then .error .InvalidAccountOwner
  else if ¬a.ataAddressOk then .error .InvalidAccountData
  else if ¬a.unpackOk then .error .InvalidAccountData
  else if a.source.owner ≠ from_ then .error .InvalidAccountOwner
  else if a.source.mint ≠ a.mintKey then .error .InvalidAccountData
  else if a.source.amount < 1 then .error .InsufficientFunds
  else .ok ()

/-- The `for nft_mint in &nft_mints` loop of `process_add_trade_step`,
pulling two accounts per mint from the instruction account list. -/
def checkAddNfts (from_ : Pubkey) :
    List Pubkey → List MintAccounts → Except SwapError Unit
  | [], _ => .ok ()
  | _ :: _, [] => .error .NotEnoughAccountKeys
  | m :: ms, a :: rest => do
      checkAddNft from_ m a
      checkAddNfts from_ ms rest

/-- The duplicate-mint scan of `process_add_trade_step` (a `HashSet` insert
loop erroring on the first repeated mint). -/
def hasDuplicate : List Pubkey → Bool
  | [] => false
  | m :: ms => ms.contains m || hasDuplicate ms

/-- The add-or-replace of `process_add_trade_step` (lines 222-226): when the
index is at or past the current length the new step is pushed at the end,
otherwise the existing step at that index is overwritten. -/
def addOrReplace (steps : List TradeStep) (step_index : Nat) (new_step : TradeStep) :
    List TradeStep :=
  if steps.length ≤ step_index then steps ++ [new_step]
  else steps.set step_index new_step

/-- `process_add_trade_step` from the deserialization point: index below
capacity, non-empty duplicate-free mint list, ownership verification of each
mint, then append (`push`) or overwrite (`steps[i] = new_step`), and the
cycle check only when the step list has reached capacity. -/
def add_trade_step (t : TradeLoop) (from_ : Pubkey) (step_index : Nat)
    (to_ : Pubkey) (nft_mints : List Pubkey) (accs : List MintAccounts) :
    Except SwapError TradeLoop :=
  if ¬t.is_initialized then .error .UninitializedAccount
  else if t.cap ≤ step_index then .error .InvalidInstructionData
  else if nft_mints.isEmpty then .error .InvalidInstructionData
  else if hasDuplicate nft_mints then .error .InvalidInstructionData
  else do
    checkAddNfts from_ nft_mints accs
    let steps2 := addOrReplace t.steps step_index ⟨from_, to_, nft_mints, .Created⟩
    let t2 := { t with steps := steps2 }
    if steps2.length = t.cap ∧ ¬t2.verify_loop then .error .TradeLoopVerificationFailed
    else .ok t2

/-- `process_approve_trade_step` from the deserialization point: initialized,
not expired, index in range, caller owns the step; re-approval is an
idempotent success, an executed step is refused, otherwise the status becomes
`Approved`. -/
def approve_trade_step (t : TradeLoop) (sender : Pubkey) (now : Nat)
    (step_index : Nat) : Except SwapError TradeLoop :=
  if ¬t.is_initialized then .error .UninitializedAccount
  else if t.is_expired now then .error .TradeTimeoutExceeded
  else if t.steps.length ≤ step_index then .error .InvalidInstructionData
  else
    let step := t.steps.getD step_index dummyStep
    if step.from_ ≠ sender then .error .InvalidAccountOwner
    else if step.status = .Approved then .ok t
    else if step.status = .Executed then .error .StepAlreadyExecuted
    else .ok { t with steps := t.steps.set step_index { step with status := .Approved } }

/-- Environment for one NFT of an execute call: the supplied mint account
key, the outcomes of the external verifications, the destination-account
situation, the unpacked source token account, and the outcome of the
delegated `transfer_nft` call. -/
structure ExecNftAccounts where
  mintKey : Pubkey
  metadataOk : Bool
  tokenProgramOwnedOk : Bool
  srcAtaOk : Bool
  destExists : Bool
  destAtaOk : Bool
  createDestOk : Bool
  unpackOk : Bool
  source : SplTokenAccount
  transferOk : Bool
deriving DecidableEq

/-- Per-NFT body of the execute loops (`process_execute_trade_step` lines
409-473 and the inner loop of `process_execute_full_trade_loop`): mint key
match, metadata check, token-program ownership, source ATA address,
destination ATA address when it exists, destination creation when it does
not, source account owner / mint / amount, then the delegated transfer. -/
def checkExecNft (sender : Pubkey) (m : Pubkey) (a : ExecNftAccounts) :
    Except SwapError Unit :=
  if a.mintKey ≠ m then .error .InvalidAccountData
  else if ¬a.metadataOk then .error .InvalidMetadataAccount
  else if ¬a.tokenProgramOwnedOk then .error .InvalidAccountOwner
  else if a.destExists ∧ ¬a.destAtaOk then .error .InvalidAccountData
  else if ¬a.destExists ∧ ¬a.createDestOk then .error .CreateAccountFailed
  else if ¬a.srcAtaOk then .error .InvalidAccountData
  else if ¬a.unpackOk then .error .InvalidAccountData
  else if a.source.owner ≠ sender then .error .InvalidAccountOwner
  else if a.source.mint ≠ a.mintKey then .error .InvalidAccountData
  else if a.source.amount < 1 then .error .InsufficientFunds
  else if ¬a.transferOk then .error .TransferFailed
  else .ok ()

/-- The per-step NFT loop of the execute handlers, pulling three accounts per
mint from the instruction account list. -/
def checkExecNfts (sender : Pubkey) :
    List Pubkey → List ExecNftAccounts → Except SwapError Unit
  | [], _ => .ok ()
  | _ :: _, [] => .error .NotEnoughAccountKeys
  | m :: ms, a :: rest => do
      checkExecNft sender m a
      checkExecNfts sender ms rest

/-- `process_execute_trade_step` from the deserialization point.  Note the
source order: `status != Approved` is checked first (`MissingApprovals`), so
the later `status == Executed` check (`StepAlreadyExecuted`) is unreachable;
both appear here exactly as in the source. -/
def execute_trade_step (t : TradeLoop) (sender recipient : Pubkey) (now : Nat)
    (step_index : Nat) (accs : List ExecNftAccounts) : Except SwapError TradeLoop :=
  if ¬t.is_initialized then .error .UninitializedAccount
  else if t.is_expired now then .error .TradeTimeoutExceeded
  else if t.steps.length ≤ step_index then .error .InvalidInstructionData
  else
    let step := t.steps.getD step_index dummyStep
    if step.status ≠ .Approved then .error .MissingApprovals
    else if step.status = .Executed then .error .StepAlreadyExecuted
    else if step.from_ ≠ sender then .error .InvalidAccountData
    else if step.to_ ≠ recipient then .error .InvalidAccountData
    else do
      checkExecNfts sender step.nft_mints accs
      .ok { t with steps := t.steps.set step_index { step with status := .Executed } }

/-- Accounts supplied for one step of `process_execute_full_trade_loop`: the
sender and recipient wallets and the per-NFT account triplets. -/
structure StepAccounts where
  senderKey : Pubkey
  recipientKey : Pubkey
  nfts : List ExecNftAccounts
deriving DecidableEq

/-- The `for (step_index, step)` loop of `process_execute_full_trade_loop`:
for each step, the already-executed guard (unreachable after the readiness
check, kept as in the source), the sender / recipient match, the NFT checks
and transfers, then the status update to `Executed`. -/
def execFullSteps : List TradeStep → List StepAccounts →
    Except SwapError (List TradeStep)
  | [], _ => .ok []
  | _ :: _, [] => .error .NotEnoughAccountKeys
  | st :: sts, a :: rest =>
    if st.status = .Executed then .error .StepAlreadyExecuted
    else if st.from_ ≠ a.senderKey then .error .InvalidAccountData
    else if st.to_ ≠ a.recipientKey then .error .InvalidAccountData
    else do
      checkExecNfts a.senderKey st.nft_mints a.nfts
      let rest2 ← execFullSteps sts rest
      .ok ({ st with status := .Executed } :: rest2)

/-- `process_execute_full_trade_loop` from the deserialization point:
initialized, not expired, valid cycle, every step approved, participant
bound, then the step loop. -/
def execute_full_trade_loop (t : TradeLoop) (now : Nat)
    (accs : List StepAccounts) : Except SwapError TradeLoop :=
  if ¬t.is_initialized then .error .UninitializedAccount
  else if t.is_expired now then .error .TradeTimeoutExceeded
  else if ¬t.verify_loop then .error .TradeLoopVerificationFailed
  else if ¬t.is_ready_for_execution then .error .MissingApprovals
  else if MAX_PARTICIPANTS_PER_TRANSACTION < t.steps.length then .error .TooManyParticipants
  else do
    let steps2 ← execFullSteps t.steps accs
    .ok { t with steps := steps2 }

/-- `process_cancel_trade_loop` from the deserialization point: the caller
must own a step (the source takes `position`, the first match), that step
must still be `Created`, and no step anywhere may be `Approved`; success
erases the record (performed by `applyAction`). -/
def cancel_trade_loop (t : TradeLoop) (canceller : Pubkey) : Except SwapError Unit :=
  if ¬t.is_initialized then .error .UninitializedAccount
  else
    match t.steps.find? (fun step => step.from_ == canceller) with
    | none => .error .InvalidAccountOwner
    | some user_step =>
      if user_step.status ≠ .Created then .error .CancellationDenied
      else if t.steps.any (fun step => step.status == .Approved) then .error .CancellationDenied
      else .ok ()

/-- `process_initialize_trade_loop` (the record-existence check lives in
`applyAction`): step-count and timeout bounds, checked addition of the
expiry, then the fresh record with empty steps and capacity `step_count`. -/
def initialize_trade_loop (payer : Pubkey) (trade_id : Bytes32)
    (step_count : Nat) (timeout_seconds : Nat) (now : Nat) :
    Except SwapError TradeLoop :=
  if step_count = 0 then .error .InvalidInstructionData
  else if MAX_PARTICIPANTS_PER_TRANSACTION < step_count then .error .TooManyParticipants
  else if MAX_TIMEOUT_SECONDS < timeout_seconds then .error .InvalidInstructionData
  else if 2 ^ 64 ≤ now + timeout_seconds then .error .InvalidInstructionData
  else .ok ⟨true, trade_id, now, now + timeout_seconds, [], payer, step_count⟩

/-!
## Persisted-state transition

The hosting ledger serializes invocations per record and commits all of an
invocation or none of it (spec section 5): a handler error leaves the
persisted record exactly as it was; cancellation zeroes the record. -/

/-- The persisted state of one trade-loop record: absent/zeroed or a loop. -/
abbrev PState := Option TradeLoop

/-- One invocation against a trade-loop record. -/
inductive LoopAction where
  | initLoop (payer : Pubkey) (trade_id : Bytes32) (step_count : Nat)
      (timeout_seconds : Nat) (now : Nat)
  | addStep (from_ : Pubkey) (step_index : Nat) (to_ : Pubkey)
      (nft_mints : List Pubkey) (accs : List MintAccounts)
  | approveStep (sender : Pubkey) (now : Nat) (step_index : Nat)
  | executeStep (sender recipient : Pubkey) (now : Nat) (step_index : Nat)
      (accs : List ExecNftAccounts)
  | executeFullLoop (now : Nat) (accs : List StepAccounts)
  | cancelLoop (canceller : Pubkey)

/-- Whether an action is an `AddTradeStep` invocation. -/
def LoopAction.isAddStep : LoopAction → Bool
  | .addStep _ _ _ _ _ => true
  | _ => false

/-- Atomic commit of one handler result: on success the new record is
persisted, on any error the old record is kept unchanged. -/
def commitR (t : TradeLoop) : Except SwapError TradeLoop → PState
  | .ok t2 => some t2
  | .error _ => some t

/-- The persisted-state transition of one invocation.  `initialize` refuses
an existing record (`data_len() > 0` check); every other handler on an absent
record fails at deserialization / the initialized check and persists nothing;
a successful cancellation zeroes the record. -/
def applyAction : PState → LoopAction → PState
  | none, .initLoop p tid sc ts now =>
      match initialize_trade_loop p tid sc ts now with
      | .ok t => some t
      | .error _ => none
  | some t, .initLoop _ _ _ _ _ => some t
  | none, _ => none
  | some t, .addStep f i to_ ms accs => commitR t (add_trade_step t f i to_ ms accs)
  | some t, .approveStep s now i => commitR t (approve_trade_step t s now i)
  | some t, .executeStep s r now i accs => commitR t (execute_trade_step t s r now i accs)
  | some t, .executeFullLoop now accs => commitR t (execute_full_trade_loop t now accs)
  | some t, .cancelLoop c =>
      match cancel_trade_loop t c with
      | .ok _ => none
      | .error _ => some t

/-- Status of step `i` of a persisted record, when both exist. -/
def stepStatusAt (s : PState) (i : Nat) : Option StepStatus :=
  match s with
  | none => none
  | some t => (t.steps.get? i).map TradeStep.status

/-!
## Claim C4: cycle verification
-/

/-- The adjacency scan of `verify_loop` is the chain of the handoff relation. -/
theorem chainOk_iff_chain (l : List TradeStep) :
    chainOk l = true ↔ l.Chain' (fun a b => a.to_ = b.from_) := by
  induction l with
  | nil => simp [chainOk]
  | cons a l ih =>
      cases l with
      | nil => simp [chainOk]
      | cons b r =>
          simp [chainOk, Bool.and_eq_true, beq_iff_eq, ih, List.chain'_cons]

/-- The specification wording of a valid cycle (spec section 4.2): non-empty,
the last step's recipient equals the first step's sender, every adjacent pair
chains, and the set of distinct senders has size at least two. -/
def SpecValidCycle (steps : List TradeStep) : Prop :=
  steps ≠ [] ∧
  steps.getLast?.map TradeStep.to_ = steps.head?.map TradeStep.from_ ∧
  (∀ (i : Nat) (h : i < steps.length - 1),
    (steps.get ⟨i, by omega⟩).to_ = (steps.get ⟨i + 1, by omega⟩).from_) ∧
  2 ≤ (steps.map TradeStep.from_).toFinset.card

/-- Claim C4: for every fully-populated step sequence, `verify_loop` returns
true if and only if the sequence is non-empty, the last step's recipient
equals the first step's sender, each step's recipient equals the next step's
sender, and at least two distinct senders participate. -/
theorem verify_loop_iff_valid_cycle (t : TradeLoop) :
    t.verify_loop = true ↔ SpecValidCycle t.steps := by
  rcases hs : t.steps with _ | ⟨a, l⟩
  · simp [TradeLoop.verify_loop, SpecValidCycle, hs]
  · have hne : a :: l ≠ [] := List.cons_ne_nil a l
    simp only [TradeLoop.verify_loop, SpecValidCycle, hs, List.head?_cons,
      List.getLast?_eq_getLast _ hne, Bool.and_eq_true, beq_iff_eq,
      decide_eq_true_eq, chainOk_iff_chain, List.chain'_iff_get,
      List.card_toFinset, Option.map_some', Option.some.injEq, ne_eq,
      reduceCtorEq, not_false_eq_true, true_and]
    tauto

/-!
## Sample data for concrete witnesses and counterexamples
-/

/-- A public key whose 32 bytes all equal `b`. -/
def mkPk (b : Byte) : Pubkey := ⟨List.replicate 32 b, by simp⟩

/-- Sample participant keys and mint keys. -/
def pkA : Pubkey := mkPk 1

def pkB : Pubkey := mkPk 2

def pkC : Pubkey := mkPk 3

def mintM1 : Pubkey := mkPk 101

def mintM2 : Pubkey := mkPk 102

def mintM3 : Pubkey := mkPk 103

/-- An execute-side NFT environment in which every check and the transfer
succeed for sender `s` and mint `m`. -/
def goodExec (s m : Pubkey) : ExecNftAccounts :=
  ⟨m, true, true, true, true, true, true, true, ⟨s, m, 1⟩, true⟩

/-- An add-side NFT environment in which every check succeeds for sender `s`
and mint `m`. -/
def goodMint (s m : Pubkey) : MintAccounts :=
  ⟨m, true, true, true, true, ⟨s, m, 1⟩⟩

/-!
## Claim C6: expiry blocks forward progress only
-/

/-- Claim C6: once the current time reaches `expires_at`, `approveStep`,
`executeStep` and `executeFullLoop` each fail with `TradeTimeoutExceeded`,
while `cancelLoop` takes no clock at all: an expired loop that meets the
cancellation conditions is still cancelled. -/
theorem expiry_blocks_forward_progress_only (t : TradeLoop) (now : Nat)
    (hinit : t.is_initialized = true) (hexp : t.expires_at ≤ now) :
    (∀ sender i, approve_trade_step t sender now i = .error .TradeTimeoutExceeded) ∧
    (∀ s r i accs, execute_trade_step t s r now i accs = .error .TradeTimeoutExceeded) ∧
    (∀ accs, execute_full_trade_loop t now accs = .error .TradeTimeoutExceeded) ∧
    (∀ caller s, t.steps.find? (fun st => st.from_ == caller) = some s →
      s.status = .Created → (∀ st ∈ t.steps, st.status ≠ .Approved) →
      cancel_trade_loop t caller = .ok ()) := by
  have hexpired : t.is_expired now = true := by
    simp [TradeLoop.is_expired, hexp]
  refine ⟨?_, ?_, ?_, ?_⟩
  · intro sender i
    simp [approve_trade_step, hinit, hexpired]
  · intro s r i accs
    simp [execute_trade_step, hinit, hexpired]
  · intro accs
    simp [execute_full_trade_loop, hinit, hexpired]
  · intro caller s hfind hcreated hnoapp
    have hany : t.steps.any (fun st => st.status == .Approved) = false := by
      rw [Bool.eq_false_iff]
      intro hany
      rw [List.any_eq_true] at hany
      obtain ⟨st, hmem, hst⟩ := hany
      exact hnoapp st hmem (by simpa using hst)
    simp [cancel_trade_loop, hinit, hfind, hcreated, hany]

/-- A 2-step loop that expired at time 5 with no approvals anywhere. -/
def c6Loop : TradeLoop :=
  { is_initialized := true, trade_id := mkPk 0, created_at := 0, expires_at := 5,
    steps := [⟨pkA, pkB, [mintM1], .Created⟩, ⟨pkB, pkA, [mintM2], .Created⟩],
    authority := pkA, cap := 2 }

/-- Witness for C6 at time 10 (past expiry): approval, single-step execution
and full execution are all rejected with `TradeTimeoutExceeded`, yet the same
expired loop is still cancelled by participant `pkA`. -/
theorem expiry_blocks_forward_progress_only_witness :
    approve_trade_step c6Loop pkA 10 0 = .error .TradeTimeoutExceeded ∧
    execute_trade_step c6Loop pkA pkB 10 0 [goodExec pkA mintM1] = .error .TradeTimeoutExceeded ∧
    execute_full_trade_loop c6Loop 10 [] = .error .TradeTimeoutExceeded ∧
    cancel_trade_loop c6Loop pkA = .ok () := by
  have h := expiry_blocks_forward_progress_only c6Loop 10 (by decide) (by decide)
  exact ⟨h.1 pkA 0, h.2.1 pkA pkB 0 [goodExec pkA mintM1], h.2.2.1 [],
    h.2.2.2 pkA ⟨pkA, pkB, [mintM1], .Created⟩ (by decide) (by decide) (by decide)⟩

/-!
## Claim C7: executeStep status gating
-/

/-- A 1-step loop whose only step is already `Executed`. -/
def c7LoopExecuted : TradeLoop :=
  { is_initialized := true, trade_id := mkPk 0, created_at := 0, expires_at := 100,
    steps := [⟨pkA, pkB, [mintM1], .Executed⟩], authority := pkA, cap := 1 }

/-- A 1-step loop whose only step is still `Created`. -/
def c7LoopCreated : TradeLoop :=
  { is_initialized := true, trade_id := mkPk 0, created_at := 0, expires_at := 100,
    steps := [⟨pkA, pkB, [mintM1], .Created⟩], authority := pkA, cap := 1 }

/-- Claim C7, evaluated on the failing input: a `Created` step is rejected
with `MissingApprovals` as the claim says, but re-executing an `Executed`
step is ALSO rejected with `MissingApprovals`, not `StepAlreadyExecuted` —
the source checks `status != Approved` first, so its dedicated
`status == Executed` check is unreachable. -/
theorem executeStep_executed_yields_missingApprovals :
    execute_trade_step c7LoopCreated pkA pkB 0 0 [goodExec pkA mintM1] =
      .error .MissingApprovals ∧
    execute_trade_step c7LoopExecuted pkA pkB 0 0 [goodExec pkA mintM1] =
      .error .MissingApprovals ∧
    execute_trade_step c7LoopExecuted pkA pkB 0 0 [goodExec pkA mintM1] ≠
      .error .StepAlreadyExecuted := by decide

/-!
## Claim C2: cancellation conditions
-/

/-- Any approval anywhere in the loop denies cancellation to every
participant (shared by claims C2 and C10). -/
theorem cancel_denied_of_approved (t : TradeLoop) (caller : Pubkey)
    (hinit : t.is_initialized = true)
    (happ : ∃ st ∈ t.steps, st.status = .Approved)
    (hown : ∃ st ∈ t.steps, st.from_ = caller) :
    cancel_trade_loop t caller = .error .CancellationDenied := by
  obtain ⟨sa, hsaMem, hsaApp⟩ := happ
  obtain ⟨so, hsoMem, hsoFrom⟩ := hown
  have hfind : (t.steps.find? (fun st => st.from_ == caller)).isSome := by
    rw [List.find?_isSome]
    exact ⟨so, hsoMem, by simp [hsoFrom]⟩
  obtain ⟨u, hu⟩ := Option.isSome_iff_exists.mp hfind
  have hany : t.steps.any (fun st => st.status == .Approved) = true := by
    rw [List.any_eq_true]
    exact ⟨sa, hsaMem, by simp [hsaApp]⟩
  by_cases hcu : u.status = .Created
  · simp [cancel_trade_loop, hinit, hu, hcu, hany]
  · simp [cancel_trade_loop, hinit, hu, hcu]

/-- Claim C2 (amended): with the record initialized, `cancelLoop` succeeds
if and only if the FIRST step owned by the caller (the source takes
`position`, the first match) is still `Created` and no step anywhere is
`Approved`; success erases the record; and any approval anywhere denies
cancellation to every participant. -/
theorem cancelLoop_success_iff (t : TradeLoop) (caller : Pubkey)
    (hinit : t.is_initialized = true) :
    (cancel_trade_loop t caller = .ok () ↔
      ((∃ s, t.steps.find? (fun st => st.from_ == caller) = some s ∧
          s.status = .Created) ∧
        ∀ st ∈ t.steps, st.status ≠ .Approved)) ∧
    (cancel_trade_loop t caller = .ok () →
      applyAction (some t) (.cancelLoop caller) = none) ∧
    ((∃ st ∈ t.steps, st.status = .Approved) → (∃ st ∈ t.steps, st.from_ = caller) →
      cancel_trade_loop t caller = .error .CancellationDenied) := by
  refine ⟨?_, ?_, cancel_denied_of_approved t caller hinit⟩
  · cases hf : t.steps.find? (fun st => st.from_ == caller) with
    | none =>
        simp only [cancel_trade_loop, hinit, Bool.not_true, hf]
        constructor
        · intro h
          simp at h
        · rintro ⟨⟨s, hs, _⟩, _⟩
          cases hs
    | some s =>
        by_cases hcs : s.status = .Created
        · cases hany : t.steps.any (fun st => st.status == .Approved) with
          | true =>
              simp only [cancel_trade_loop, hinit, Bool.not_true, hf, hcs, hany]
              rw [List.any_eq_true] at hany
              obtain ⟨sa, hsaMem, hsaApp⟩ := hany
              constructor
              · intro h
                simp at h
              · rintro ⟨_, hall⟩
                exact absurd (by simpa using hsaApp) (hall sa hsaMem)
          | false =>
              simp only [cancel_trade_loop, hinit, Bool.not_true, hf, hcs, hany]
              constructor
              · intro _
                refine ⟨⟨s, rfl, hcs⟩, ?_⟩
                intro st hmem hst
                rw [Bool.eq_false_iff] at hany
                exact hany (List.any_eq_true.mpr ⟨st, hmem, by simp [hst]⟩)
              · intro _
                simp
        · simp only [cancel_trade_loop, hinit, Bool.not_true, hf, hcs]
          constructor
          · intro h
            simp [hcs] at h
          · rintro ⟨⟨s2, hs2, hs2c⟩, _⟩
            cases hs2
            exact absurd hs2c hcs
  · intro hok
    simp only [applyAction, hok]

/-- A loop in which caller `pkA` owns two steps: the first (index 0) already
`Executed`, the second (index 1) still `Created`; no step is `Approved`. -/
def c2Loop : TradeLoop :=
  { is_initialized := true, trade_id := mkPk 0, created_at := 0, expires_at := 100,
    steps := [⟨pkA, pkB, [mintM1], .Executed⟩, ⟨pkA, pkC, [mintM2], .Created⟩],
    authority := pkA, cap := 3 }

/-- Claim C2 counterexample: `pkA` owns a step (index 1) whose status is
still `Created` and no step in the loop is `Approved`, so the claim as
stated says cancellation succeeds; the code denies it, because the first
step owned by `pkA` (index 0) is `Executed`. -/
theorem cancelLoop_claim_counterexample :
    (c2Loop.steps.getD 1 dummyStep).from_ = pkA ∧
    (c2Loop.steps.getD 1 dummyStep).status = .Created ∧
    c2Loop.steps.all (fun st => st.status != .Approved) = true ∧
    cancel_trade_loop c2Loop pkA = .error .CancellationDenied := by decide

/-- A cancellable loop: both steps `Created`, no approvals. -/
def c2WitLoop : TradeLoop :=
  { is_initialized := true, trade_id := mkPk 0, created_at := 0, expires_at := 100,
    steps := [⟨pkA, pkB, [mintM1], .Created⟩, ⟨pkB, pkA, [mintM2], .Created⟩],
    authority := pkA, cap := 2 }

/-- Witness for the amended C2: on a loop with no approvals whose first
`pkA`-owned step is `Created`, cancellation succeeds and erases the record;
after `pkB` approves, cancellation is denied. -/
theorem cancelLoop_success_iff_witness :
    cancel_trade_loop c2WitLoop pkA = .ok () ∧
    applyAction (some c2WitLoop) (.cancelLoop pkA) = none := by
  have h := cancelLoop_success_iff c2WitLoop pkA (by decide)
  have hok : cancel_trade_loop c2WitLoop pkA = .ok () :=
    h.1.mpr ⟨⟨⟨pkA, pkB, [mintM1], .Created⟩, by decide, by decide⟩, by decide⟩
  exact ⟨hok, h.2.1 hok⟩

/-!
## Claim C10: approval is not gated on loop completeness
-/

/-- Claim C10 (amended): on an initialized, unexpired loop that is still
below its construction-time capacity, `approveStep(i)` succeeds whenever `i`
is in range, the caller owns step `i`, and step `i` is not already
`Executed` — no completeness or cycle check is consulted — and afterwards
every participant's cancellation is denied. -/
theorem approve_not_gated_on_completeness (t : TradeLoop) (sender : Pubkey)
    (now i : Nat) (hinit : t.is_initialized = true)
    (_hincomplete : t.steps.length < t.cap) (hexp : t.is_expired now = false)
    (hi : i < t.steps.length)
    (hfrom : (t.steps.getD i dummyStep).from_ = sender)
    (hstat : (t.steps.getD i dummyStep).status ≠ .Executed) :
    ∃ t2, approve_trade_step t sender now i = .ok t2 ∧
      stepStatusAt (some t2) i = some .Approved ∧
      (∀ caller, (∃ st ∈ t2.steps, st.from_ = caller) →
        cancel_trade_loop t2 caller = .error .CancellationDenied) := by
  have hlen : ¬t.steps.length ≤ i := Nat.not_le.mpr hi
  obtain ⟨s0, hs0⟩ : ∃ s0, t.steps[i]? = some s0 := ⟨_, List.getElem?_eq_getElem hi⟩
  have hmem : s0 ∈ t.steps := List.getElem?_mem hs0
  have hgd : t.steps.getD i dummyStep = s0 := by
    simp [List.getD_eq_getElem?_getD, hs0]
  rw [hgd] at hfrom hstat
  by_cases happ : s0.status = .Approved
  · refine ⟨t, ?_, ?_, ?_⟩
    · simp [approve_trade_step, hinit, hexp, hlen, hs0, hfrom, happ]
    · simp only [stepStatusAt, List.get?_eq_getElem?, hs0, Option.map_some']
      rw [happ]
    · intro caller hcall
      exact cancel_denied_of_approved t caller hinit ⟨s0, hmem, happ⟩ hcall
  · refine ⟨{ t with steps := t.steps.set i { s0 with status := .Approved } }, ?_, ?_, ?_⟩
    · simp [approve_trade_step, hinit, hexp, hlen, hs0, hfrom, happ, hstat]
    · simp only [stepStatusAt, List.get?_eq_getElem?]
      simp [List.getElem?_set_self', List.getElem?_eq_getElem hi]
    · intro caller hcall
      refine cancel_denied_of_approved _ caller hinit
        ⟨{ s0 with status := .Approved }, ?_, rfl⟩ hcall
      exact List.mem_set t.steps i hi _

/-- An incomplete loop (1 of 3 steps) whose only step is `Executed` and not
expired. -/
def c10Loop : TradeLoop :=
  { is_initialized := true, trade_id := mkPk 0, created_at := 0, expires_at := 100,
    steps := [⟨pkA, pkB, [mintM1], .Executed⟩], authority := pkA, cap := 3 }

/-- Claim C10 counterexample: the loop is below capacity, unexpired, the
index is in range and the caller owns the step, yet `approveStep` does not
succeed: the step is already `Executed` and the handler rejects it with
`StepAlreadyExecuted`, a case the claim as stated does not except. -/
theorem approve_claim_counterexample :
    c10Loop.steps.length < c10Loop.cap ∧
    c10Loop.is_expired 0 = false ∧
    (c10Loop.steps.getD 0 dummyStep).from_ = pkA ∧
    approve_trade_step c10Loop pkA 0 0 = .error .StepAlreadyExecuted := by decide

/-- An incomplete loop (2 of 3 steps), everything still `Created`. -/
def c10WitLoop : TradeLoop :=
  { is_initialized := true, trade_id := mkPk 0, created_at := 0, expires_at := 100,
    steps := [⟨pkA, pkB, [mintM1], .Created⟩, ⟨pkB, pkC, [mintM2], .Created⟩],
    authority := pkA, cap := 3 }

/-- Witness for the amended C10: `pkA` approves step 0 of an incomplete,
unverified loop; the approval lands and `pkB` (another participant) can no
longer cancel. -/
theorem approve_not_gated_on_completeness_witness :
    ∃ t2, approve_trade_step c10WitLoop pkA 0 0 = .ok t2 ∧
      stepStatusAt (some t2) 0 = some .Approved ∧
      cancel_trade_loop t2 pkB = .error .CancellationDenied := by
  obtain ⟨t2, hok, hst, hdenied⟩ :=
    approve_not_gated_on_completeness c10WitLoop pkA 0 0 (by decide) (by decide)
      (by decide) (by decide) (by decide) (by decide)
  refine ⟨t2, hok, hst, hdenied pkB ?_⟩
  have hcomp : approve_trade_step c10WitLoop pkA 0 0 = .ok { c10WitLoop with steps :=
      [⟨pkA, pkB, [mintM1], .Approved⟩, ⟨pkB, pkC, [mintM2], .Created⟩] } := by decide
  have ht2 := Except.ok.inj (hcomp.symm.trans hok)
  subst ht2
  exact ⟨⟨pkB, pkC, [mintM2], .Created⟩, by decide, rfl⟩

/-!
## Claim C5: the cycle check runs only at capacity
-/

/-- Reduction of a successful `Except` bind, used to step through the `do`
blocks of the handlers. -/
theorem ok_bind {ε α β : Type} (x : α) (f : α → Except ε β) :
    (Except.ok x : Except ε α) >>= f = f x := rfl

/-- Claim C5: when all per-call validation passes, an add that leaves the
step list strictly below the construction-time capacity succeeds with no
cycle validation at all, while an add that reaches capacity runs
`verify_loop`; if that fails the whole call fails with
`TradeLoopVerificationFailed` and the persisted record is unchanged (steps
accepted by prior successful calls remain). -/
theorem addStep_cycle_check_only_at_capacity (t : TradeLoop) (f to_ : Pubkey)
    (i : Nat) (ms : List Pubkey) (accs : List MintAccounts)
    (hinit : t.is_initialized = true) (hcap : i < t.cap)
    (hne : ms.isEmpty = false) (hnd : hasDuplicate ms = false)
    (hchk : checkAddNfts f ms accs = .ok ()) :
    (((addOrReplace t.steps i ⟨f, to_, ms, .Created⟩).length < t.cap) →
      add_trade_step t f i to_ ms accs =
        .ok { t with steps := addOrReplace t.steps i ⟨f, to_, ms, .Created⟩ }) ∧
    (((addOrReplace t.steps i ⟨f, to_, ms, .Created⟩).length = t.cap) →
      ({ t with steps := addOrReplace t.steps i ⟨f, to_, ms, .Created⟩ } :
          TradeLoop).verify_loop = false →
      add_trade_step t f i to_ ms accs = .error .TradeLoopVerificationFailed ∧
      applyAction (some t) (.addStep f i to_ ms accs) = some t) := by
  obtain ⟨ti, tid, ca, ea, sts, au, cp⟩ := t
  replace hinit : ti = true := hinit
  subst hinit
  constructor
  · intro hlt
    simp [add_trade_step, hchk, ok_bind, hne, hnd, Nat.not_le.mpr hcap,
      Nat.ne_of_lt hlt]
  · intro heq hverify
    have herr : add_trade_step ⟨true, tid, ca, ea, sts, au, cp⟩ f i to_ ms accs =
        .error .TradeLoopVerificationFailed := by
      simp [add_trade_step, hchk, ok_bind, hne, hnd, Nat.not_le.mpr hcap, heq, hverify]
    exact ⟨herr, by simp [applyAction, commitR, herr]⟩

/-- A 2-capacity loop holding one previously accepted step `pkA → pkB`. -/
def c5Loop : TradeLoop :=
  { is_initialized := true, trade_id := mkPk 0, created_at := 0, expires_at := 100,
    steps := [⟨pkA, pkB, [mintM1], .Created⟩], authority := pkA, cap := 2 }

/-- Witness for C5: adding `pkB → pkC` (recipient `pkC`, not closing back to
`pkA`) reaches capacity, the cycle check runs and fails, the call returns
`TradeLoopVerificationFailed`, and the persisted record still holds exactly
the previously accepted step. -/
theorem addStep_cycle_check_only_at_capacity_witness :
    add_trade_step c5Loop pkB 1 pkC [mintM2] [goodMint pkB mintM2] =
      .error .TradeLoopVerificationFailed ∧
    applyAction (some c5Loop) (.addStep pkB 1 pkC [mintM2] [goodMint pkB mintM2]) =
      some c5Loop := by
  exact (addStep_cycle_check_only_at_capacity c5Loop pkB pkC 1 [mintM2]
    [goodMint pkB mintM2] (by decide) (by decide) (by decide) (by decide)
    (by decide)).2 (by decide) (by decide)

/-!
## Claim C1: atomicity of executeFullLoop
-/

/-- Inversion of a successful `Except` bind. -/
theorem bind_ok_inv {ε α β : Type} {x : Except ε α} {f : α → Except ε β} {b : β}
    (h : x >>= f = .ok b) : ∃ a, x = .ok a ∧ f a = .ok b := by
  cases x with
  | ok a => exact ⟨a, rfl, by rw [ok_bind] at h; exact h⟩
  | error e => exact Except.noConfusion (show Except.error e = Except.ok b from h)

set_option maxHeartbeats 2000000 in
/-- A successful per-NFT check implies the delegated transfer succeeded. -/
theorem checkExecNft_ok {s m : Pubkey} {a : ExecNftAccounts}
    (h : checkExecNft s m a = .ok ()) : a.transferOk = true := by
  cases ht : a.transferOk with
  | true => rfl
  | false =>
      exfalso
      unfold checkExecNft at h
      split_ifs at h with h1 h2 h3 h4 h5 h6 h7 h8 h9 h10 h11
      all_goals
        first
          | exact Except.noConfusion h
          | exact absurd h11 (by simp [ht])

/-- A successful per-step NFT loop implies every listed transfer succeeded. -/
theorem checkExecNfts_ok (s : Pubkey) :
    ∀ (ms : List Pubkey) (accs : List ExecNftAccounts),
      checkExecNfts s ms accs = .ok () →
      ∀ j, j < ms.length → ∃ n, accs.get? j = some n ∧ n.transferOk = true := by
  intro ms
  induction ms with
  | nil =>
      intro accs h j hj
      simp at hj
  | cons m ms ih =>
      intro accs h j hj
      cases accs with
      | nil => exact Except.noConfusion (show (Except.error SwapError.NotEnoughAccountKeys :
          Except SwapError Unit) = Except.ok () from h)
      | cons a rest =>
          simp only [checkExecNfts] at h
          obtain ⟨u, hu, hrest⟩ := bind_ok_inv h
          cases j with
          | zero => exact ⟨a, rfl, checkExecNft_ok hu⟩
          | succ j =>
              obtain ⟨n, hn, hnt⟩ := ih rest hrest j (Nat.lt_of_succ_lt_succ hj)
              exact ⟨n, hn, hnt⟩

/-- Inversion of a successful full-loop step walk: every produced step is
`Executed`, and every consumed step passed its per-NFT checks and transfers
against the accounts supplied for its position. -/
theorem execFullSteps_ok :
    ∀ (sts : List TradeStep) (accs : List StepAccounts) (sts2 : List TradeStep),
      execFullSteps sts accs = .ok sts2 →
      (∀ st ∈ sts2, st.status = .Executed) ∧
      (∀ i, i < sts.length → ∃ a, accs.get? i = some a ∧
        checkExecNfts a.senderKey (sts.getD i dummyStep).nft_mints a.nfts = .ok ()) := by
  intro sts
  induction sts with
  | nil =>
      intro accs sts2 h
      simp only [execFullSteps] at h
      cases h
      refine ⟨by simp, ?_⟩
      intro i hi
      simp at hi
  | cons st sts ih =>
      intro accs sts2 h
      cases accs with
      | nil => exact Except.noConfusion (show (Except.error SwapError.NotEnoughAccountKeys :
          Except SwapError (List TradeStep)) = Except.ok sts2 from h)
      | cons a rest =>
          simp only [execFullSteps] at h
          split_ifs at h with h1 h2 h3
          obtain ⟨u, hchk, h4⟩ := bind_ok_inv h
          obtain ⟨rest2, hrest, h5⟩ := bind_ok_inv h4
          cases h5
          obtain ⟨ihall, ihidx⟩ := ih rest rest2 hrest
          refine ⟨?_, ?_⟩
          · intro x hx
            rcases List.mem_cons.mp hx with hx | hx
            · rw [hx]
            · exact ihall x hx
          · intro i hi
            cases i with
            | zero =>
                cases u
                exact ⟨a, rfl, by simpa using hchk⟩
            | succ i =>
                obtain ⟨a2, ha2, hc2⟩ := ihidx i (Nat.lt_of_succ_lt_succ hi)
                exact ⟨a2, ha2, by simpa using hc2⟩

/-- A transfer the full-loop handler is asked to perform at step `i`, NFT
`j`, whose delegated transfer fails in the environment. -/
def transferFailsAt (t : TradeLoop) (accs : List StepAccounts) (i j : Nat) : Prop :=
  i < t.steps.length ∧
  ∃ a, accs.get? i = some a ∧
    j < (t.steps.getD i dummyStep).nft_mints.length ∧
    ∃ n, a.nfts.get? j = some n ∧ n.transferOk = false

/-- Claim C1: `executeFullLoop` is atomic at the invocation boundary.  If any
individual transfer of the call fails, the invocation returns an error and
the persisted record is exactly what it was before the call; only when every
transfer succeeds does the call return, with every step marked `Executed`
and that updated record persisted. -/
theorem executeFullLoop_atomic (t : TradeLoop) (now : Nat)
    (accs : List StepAccounts) :
    ((∃ i j, transferFailsAt t accs i j) →
      ∃ e, execute_full_trade_loop t now accs = .error e) ∧
    (∀ e, execute_full_trade_loop t now accs = .error e →
      applyAction (some t) (.executeFullLoop now accs) = some t) ∧
    (∀ t2, execute_full_trade_loop t now accs = .ok t2 →
      (∀ st ∈ t2.steps, st.status = .Executed) ∧
      (∀ i j, ¬transferFailsAt t accs i j) ∧
      applyAction (some t) (.executeFullLoop now accs) = some t2) := by
  have hkey : ∀ t2, execute_full_trade_loop t now accs = .ok t2 →
      (∀ st ∈ t2.steps, st.status = .Executed) ∧
      (∀ i j, ¬transferFailsAt t accs i j) := by
    intro t2 hok
    unfold execute_full_trade_loop at hok
    split_ifs at hok with h1 h2 h3 h4 h5
    obtain ⟨steps2, hsteps, hmk⟩ := bind_ok_inv hok
    cases hmk
    obtain ⟨hall, hidx⟩ := execFullSteps_ok t.steps accs steps2 hsteps
    refine ⟨hall, ?_⟩
    rintro i j ⟨hi, a, ha, hj, n, hn, hnf⟩
    obtain ⟨a2, ha2, hc2⟩ := hidx i hi
    rw [ha] at ha2
    cases ha2
    obtain ⟨n2, hn2, hnt⟩ := checkExecNfts_ok a.senderKey _ _ hc2 j hj
    rw [hn] at hn2
    cases hn2
    rw [hnf] at hnt
    exact Bool.noConfusion hnt
  refine ⟨?_, ?_, ?_⟩
  · intro hfail
    cases hres : execute_full_trade_loop t now accs with
    | error e => exact ⟨e, rfl⟩
    | ok t2 =>
        obtain ⟨i, j, hf⟩ := hfail
        exact absurd hf ((hkey t2 hres).2 i j)
  · intro e herr
    simp [applyAction, commitR, herr]
  · intro t2 hok
    obtain ⟨hall, hnofail⟩ := hkey t2 hok
    exact ⟨hall, hnofail, by simp [applyAction, commitR, hok]⟩

/-- A fully approved, valid 2-cycle. -/
def c1Loop : TradeLoop :=
  { is_initialized := true, trade_id := mkPk 0, created_at := 0, expires_at := 100,
    steps := [⟨pkA, pkB, [mintM1], .Approved⟩, ⟨pkB, pkA, [mintM2], .Approved⟩],
    authority := pkA, cap := 2 }

/-- Step accounts for `c1Loop` in which the second transfer fails. -/
def c1AccsSecondFails : List StepAccounts :=
  [⟨pkA, pkB, [goodExec pkA mintM1]⟩,
   ⟨pkB, pkA, [{ goodExec pkB mintM2 with transferOk := false }]⟩]

/-- Witness for C1: with the second of two transfers failing, the invocation
errors and the persisted record is exactly the pre-call record. -/
theorem executeFullLoop_atomic_witness :
    (∃ e, execute_full_trade_loop c1Loop 0 c1AccsSecondFails = .error e) ∧
    applyAction (some c1Loop) (.executeFullLoop 0 c1AccsSecondFails) = some c1Loop := by
  have h := executeFullLoop_atomic c1Loop 0 c1AccsSecondFails
  have hfail : transferFailsAt c1Loop c1AccsSecondFails 1 0 :=
    ⟨by decide, ⟨pkB, pkA, [{ goodExec pkB mintM2 with transferOk := false }]⟩,
      by decide, by decide,
      { goodExec pkB mintM2 with transferOk := false }, by decide, by decide⟩
  obtain ⟨e, he⟩ := h.1 ⟨1, 0, hfail⟩
  exact ⟨⟨e, he⟩, h.2.1 e he⟩

/-!
## Claim C3: status monotonicity
-/

/-- Status height never exceeds `Executed`. -/
theorem rank_le_two (s : StepStatus) : s.rank ≤ 2 := by
  cases s <;> simp [StepStatus.rank]

/-- Inversion of a successful approval: either the idempotent no-op on an
already approved step, or exactly the step at the requested index moved from
`Created` to `Approved`. -/
theorem approve_ok_inv {t : TradeLoop} {s : Pubkey} {now j : Nat} {t3 : TradeLoop}
    (h : approve_trade_step t s now j = .ok t3) :
    t3 = t ∨ (j < t.steps.length ∧ (t.steps.getD j dummyStep).status = .Created ∧
      t3 = { t with steps :=
             t.steps.set j { (t.steps.getD j dummyStep) with status := .Approved } }) := by
  unfold approve_trade_step at h
  dsimp only at h
  split_ifs at h with h1 h2 h3 h4 h5 h6
  · exact Or.inl (Except.ok.inj h).symm
  · right
    refine ⟨by omega, ?_, (Except.ok.inj h).symm⟩
    cases hst : (t.steps.getD j dummyStep).status with
    | Created => rfl
    | Approved => exact absurd hst h5
    | Executed => exact absurd hst h6

/-- Inversion of a successful single-step execution: the step at the
requested index was `Approved` and moved to `Executed`. -/
theorem executeStep_ok_inv {t : TradeLoop} {s r : Pubkey} {now j : Nat}
    {accs : List ExecNftAccounts} {t3 : TradeLoop}
    (h : execute_trade_step t s r now j accs = .ok t3) :
    j < t.steps.length ∧ (t.steps.getD j dummyStep).status = .Approved ∧
      t3 = { t with steps :=
             t.steps.set j { (t.steps.getD j dummyStep) with status := .Executed } } := by
  unfold execute_trade_step at h
  dsimp only at h
  split_ifs at h with h1 h2 h3 h4 h5 h6 h7
  obtain ⟨u, hchk, hok⟩ := bind_ok_inv h
  exact ⟨by omega, by simpa using h4, (Except.ok.inj hok).symm⟩

/-- Claim C3 (amended): every operation except `addStep` is monotone on step
statuses — for any surviving step index, the persisted status after the
invocation is at least the status before it.  (`addStep` is excluded: it may
overwrite an existing step with a fresh `Created` one, see the
counterexample.) -/
theorem status_monotone_without_addStep (t t2 : TradeLoop) (a : LoopAction)
    (hna : a.isAddStep = false) (h : applyAction (some t) a = some t2)
    (i : Nat) (hi : i < t.steps.length) (hi2 : i < t2.steps.length) :
    ((t.steps.get ⟨i, hi⟩).status).rank ≤ ((t2.steps.get ⟨i, hi2⟩).status).rank := by
  cases a with
  | initLoop p tid sc ts now =>
      simp only [applyAction] at h
      injection h with h
      subst h
      exact le_rfl
  | addStep f j to_ ms accs =>
      simp [LoopAction.isAddStep] at hna
  | approveStep s now j =>
      simp only [applyAction] at h
      cases hres : approve_trade_step t s now j with
      | error e =>
          rw [hres] at h
          injection h with h
          subst h
          exact le_rfl
      | ok t3 =>
          rw [hres] at h
          injection h with h
          subst h
          rcases approve_ok_inv hres with heq | ⟨hj, hcr, heq⟩
          · subst heq
            exact le_rfl
          · subst heq
            by_cases hij : i = j
            · subst hij
              have hgd : t.steps.getD i dummyStep = t.steps.get ⟨i, hi⟩ := by
                simp [List.getD_eq_getElem?_getD, List.getElem?_eq_getElem hi,
                  List.get_eq_getElem]
              have hnew : ((t.steps.set i
                  { (t.steps.getD i dummyStep) with status := .Approved }).get ⟨i, hi2⟩).status =
                  .Approved := by
                simp [List.get_eq_getElem]
              rw [hnew, ← hgd, hcr]
              simp [StepStatus.rank]
            · have hsame : ((t.steps.set j
                  { (t.steps.getD j dummyStep) with status := .Approved }).get ⟨i, hi2⟩) =
                  t.steps.get ⟨i, hi⟩ := by
                simp [List.get_eq_getElem, List.getElem_set_ne (Ne.symm hij)]
              rw [hsame]
  | executeStep s r now j accs =>
      simp only [applyAction] at h
      cases hres : execute_trade_step t s r now j accs with
      | error e =>
          rw [hres] at h
          injection h with h
          subst h
          exact le_rfl
      | ok t3 =>
          rw [hres] at h
          injection h with h
          subst h
          obtain ⟨hj, happ, heq⟩ := executeStep_ok_inv hres
          subst heq
          by_cases hij : i = j
          · subst hij
            have hnew : ((t.steps.set i
                { (t.steps.getD i dummyStep) with status := .Executed }).get ⟨i, hi2⟩).status =
                .Executed := by
              simp [List.get_eq_getElem]
            rw [hnew]
            exact rank_le_two _
          · have hsame : ((t.steps.set j
                { (t.steps.getD j dummyStep) with status := .Executed }).get ⟨i, hi2⟩) =
                t.steps.get ⟨i, hi⟩ := by
              simp [List.get_eq_getElem, List.getElem_set_ne (Ne.symm hij)]
            rw [hsame]
  | executeFullLoop now accs =>
      simp only [applyAction] at h
      cases hres : execute_full_trade_loop t now accs with
      | error e =>
          rw [hres] at h
          injection h with h
          subst h
          exact le_rfl
      | ok t3 =>
          rw [hres] at h
          injection h with h
          subst h
          unfold execute_full_trade_loop at hres
          split_ifs at hres with hh1 hh2 hh3 hh4 hh5
          obtain ⟨steps2, hsteps, hmk⟩ := bind_ok_inv hres
          injection hmk with hmk
          subst hmk
          have hall := (execFullSteps_ok t.steps accs steps2 hsteps).1
          have hmem : steps2.get ⟨i, hi2⟩ ∈ steps2 := List.get_mem steps2 i hi2
          rw [hall _ hmem]
          exact rank_le_two _
  | cancelLoop c =>
      simp only [applyAction] at h
      cases hres : cancel_trade_loop t c with
      | error e =>
          rw [hres] at h
          injection h with h
          subst h
          exact le_rfl
      | ok u =>
          rw [hres] at h
          exact Option.noConfusion h

/-- A loop with an `Approved` step 0, still below capacity. -/
def c3Loop : TradeLoop :=
  { is_initialized := true, trade_id := mkPk 0, created_at := 0, expires_at := 100,
    steps := [⟨pkA, pkB, [mintM1], .Approved⟩, ⟨pkB, pkC, [mintM2], .Created⟩],
    authority := pkA, cap := 3 }

/-- The overwriting add: `pkC` replaces step 0 with a fresh step of its own. -/
def c3Add : LoopAction :=
  .addStep pkC 0 pkB [mintM3] [goodMint pkC mintM3]

/-- Claim C3 counterexample: step 0 is `Approved` before the `addStep`
invocation and `Created` after it — `addStep` overwrites the existing step
with a fresh `Created` step, regressing its status. -/
theorem status_monotone_counterexample :
    stepStatusAt (some c3Loop) 0 = some .Approved ∧
    stepStatusAt (applyAction (some c3Loop) c3Add) 0 = some .Created := by decide

/-- The state of `c3Loop` after `pkB` approves step 1. -/
def c3After : TradeLoop :=
  { c3Loop with steps :=
      [⟨pkA, pkB, [mintM1], .Approved⟩, ⟨pkB, pkC, [mintM2], .Approved⟩] }

/-- Witness for the amended C3: approving step 1 of `c3Loop` raises its own
status and leaves step 0 at `Approved` (rank not decreased). -/
theorem status_monotone_without_addStep_witness :
    applyAction (some c3Loop) (.approveStep pkB 0 1) = some c3After ∧
    ((c3Loop.steps.get ⟨0, by decide⟩).status).rank ≤
      ((c3After.steps.get ⟨0, by decide⟩).status).rank := by
  have happ : applyAction (some c3Loop) (.approveStep pkB 0 1) = some c3After := by decide
  exact ⟨happ, status_monotone_without_addStep c3Loop c3After (.approveStep pkB 0 1)
    rfl happ 0 (by decide) (by decide)⟩

/-!
## Claims C8 and C9: codec totality and round trips
-/

/-- Claim C8, evaluated at the failing inputs.  The empty buffer and an
unrecognized legacy tag decode to the clean `InvalidInstructionData` error as
the claim says, but truncated legacy payloads (tag 0 with no fields, tag 2
with no index byte) make the decoder panic on an out-of-bounds slice index
instead of returning an error. -/
theorem unpack_truncated_panics :
    unpack [] = .error .invalidData ∧
    unpack [byteOfNat 9] = .error .invalidData ∧
    unpack [byteOfNat 0] = .error .panicked ∧
    unpack [byteOfNat 2] = .error .panicked := by decide

theorem byteOfNat_val (n : Nat) : (byteOfNat n).val = n % 256 := rfl

theorem idxByte_cons_zero (b : Byte) (l : List Byte) : idxByte (b :: l) 0 = .ok b := by
  simp [idxByte]

theorem idxByte_cons_succ (b : Byte) (l : List Byte) (i : Nat) :
    idxByte (b :: l) (i + 1) = idxByte l i := by
  unfold idxByte
  by_cases h : i < l.length
  · rw [dif_pos (by simpa using Nat.succ_lt_succ h), dif_pos h]
    simp [List.get_eq_getElem]
  · rw [dif_neg (by simpa using fun hc => h (Nat.lt_of_succ_lt_succ hc)), dif_neg h]

theorem idxByte_append_right (l r : List Byte) (i : Nat) :
    idxByte (l ++ r) (l.length + i) = idxByte r i := by
  unfold idxByte
  by_cases h : i < r.length
  · rw [dif_pos (by simp; omega), dif_pos h]
    simp [List.get_eq_getElem, List.getElem_append_right, Nat.add_sub_cancel_left]
  · rw [dif_neg (by simp; omega), dif_neg h]

theorem sliceRange_cons_succ (b : Byte) (l : List Byte) (a c : Nat) :
    sliceRange (b :: l) (a + 1) (c + 1) = sliceRange l a c := by
  unfold sliceRange
  by_cases h : a ≤ c ∧ c ≤ l.length
  · rw [if_pos (by simp; omega), if_pos h]
    simp
  · rw [if_neg (by simp; omega), if_neg h]

theorem sliceRange_append_right (l r : List Byte) (a c : Nat) :
    sliceRange (l ++ r) (l.length + a) (l.length + c) = sliceRange r a c := by
  unfold sliceRange
  by_cases h : a ≤ c ∧ c ≤ r.length
  · rw [if_pos (by simp; omega), if_pos h]
    rw [List.drop_append_eq_append_drop, List.drop_eq_nil_of_le (by omega)]
    simp [Nat.add_sub_cancel_left]
    congr 1
    omega
  · rw [if_neg (by simp; omega), if_neg h]

theorem sliceRange_zero_exact (l r : List Byte) :
    sliceRange (l ++ r) 0 l.length = .ok l := by
  unfold sliceRange
  rw [if_pos (by simp)]
  simp [List.take_left]

theorem sliceFrom_cons_succ (b : Byte) (l : List Byte) (a : Nat) :
    sliceFrom (b :: l) (a + 1) = sliceFrom l a := by
  unfold sliceFrom
  by_cases h : a ≤ l.length
  · rw [if_pos (by simpa using Nat.succ_le_succ h), if_pos h]
    simp
  · rw [if_neg (by simpa using fun hc => h (Nat.le_of_succ_le_succ hc)), if_neg h]

theorem sliceFrom_append (l r : List Byte) : sliceFrom (l ++ r) l.length = .ok r := by
  unfold sliceFrom
  rw [if_pos (by simp)]
  simp [List.drop_left]

theorem sliceRange_zero_exact' (l r : List Byte) (n : Nat) (h : l.length = n) :
    sliceRange (l ++ r) 0 n = .ok l := by
  subst h
  exact sliceRange_zero_exact l r

theorem sliceFrom_append' (l r : List Byte) (n : Nat) (h : l.length = n) :
    sliceFrom (l ++ r) n = .ok r := by
  subst h
  exact sliceFrom_append l r

theorem idxByte_append_right' (l r : List Byte) (n i : Nat) (h : l.length = n) :
    idxByte (l ++ r) (n + i) = idxByte r i := by
  subst h
  exact idxByte_append_right l r i

theorem sliceRange_append_right' (l r : List Byte) (n a c : Nat) (h : l.length = n) :
    sliceRange (l ++ r) (n + a) (n + c) = sliceRange r a c := by
  subst h
  exact sliceRange_append_right l r a c

theorem toBytes32_toList (v : Bytes32) : toBytes32 v.toList = .ok v := by
  obtain ⟨l, hl⟩ := v
  simp [toBytes32, Mathlib.Vector.toList, hl]

theorem pubkeyNew_toList (v : Pubkey) : pubkeyNew v.toList = .ok v := by
  obtain ⟨l, hl⟩ := v
  simp [pubkeyNew, Mathlib.Vector.toList, hl]

theorem u64FromLE_natToLE (n : U64) : u64FromLE (natToLE 8 n.val) = .ok n := by
  have hlen : (natToLE 8 n.val).length = 8 := natToLE_length 8 n.val
  unfold u64FromLE
  rw [dif_pos hlen]
  congr 1
  apply Fin.ext
  simp only [leToNat_natToLE]
  exact Nat.mod_eq_of_lt (lt_of_lt_of_le n.isLt (by norm_num))

theorem u32FromLE_natToLE (n : U32) : u32FromLE (natToLE 4 n.val) = .ok n := by
  have hlen : (natToLE 4 n.val).length = 4 := natToLE_length 4 n.val
  unfold u32FromLE
  rw [dif_pos hlen]
  congr 1
  apply Fin.ext
  simp only [leToNat_natToLE]
  exact Nat.mod_eq_of_lt (lt_of_lt_of_le n.isLt (by norm_num))

/-- Total byte length of a serialized key list. -/
theorem flatten_toList_length (pks : List Pubkey) :
    ((pks.map Mathlib.Vector.toList).flatten).length = 32 * pks.length := by
  induction pks with
  | nil => simp
  | cons p ps ih =>
      simp [ih, p.toList_length]
      ring

/-- The absolute-offset key-reading loop consumes the first `k` serialized
keys that follow any prefix. -/
theorem readPubkeys_spec :
    ∀ (k : Nat) (pks : List Pubkey) (pre : List Byte), k ≤ pks.length →
      readPubkeys k pre.length (pre ++ (pks.map Mathlib.Vector.toList).flatten) =
        .ok (pks.take k) := by
  intro k
  induction k with
  | zero =>
      intro pks pre _
      simp [readPubkeys]
  | succ k ih =>
      intro pks pre hk
      cases pks with
      | nil => simp at hk
      | cons p ps =>
          simp only [List.map_cons, List.flatten_cons]
          have h1 : sliceRange
              (pre ++ (p.toList ++ (ps.map Mathlib.Vector.toList).flatten))
              pre.length (pre.length + 32) = .ok p.toList := by
            have h2 := sliceRange_append_right pre
              (p.toList ++ (ps.map Mathlib.Vector.toList).flatten) 0 32
            rw [Nat.add_zero] at h2
            rw [h2]
            exact sliceRange_zero_exact' _ _ 32 (by simp)
          simp only [readPubkeys, h1, ok_bind, pubkeyNew_toList]
          rw [show pre.length + 32 = (pre ++ p.toList).length by simp,
            show pre ++ (p.toList ++ (ps.map Mathlib.Vector.toList).flatten) =
              (pre ++ p.toList) ++ (ps.map Mathlib.Vector.toList).flatten from
              (List.append_assoc pre p.toList _).symm,
            ih ps (pre ++ p.toList) (Nat.le_of_succ_le_succ hk)]
          simp [ok_bind, List.take_succ_cons]

/-- `unpack_pubkey_vector` on a serialized key list: the count byte is the
truncated `len() as u8` cast, so only the first `len mod 256` keys are read. -/
theorem unpack_pubkey_vector_spec (pks : List Pubkey) :
    unpack_pubkey_vector
      (byteOfNat pks.length :: (pks.map Mathlib.Vector.toList).flatten) =
      .ok (pks.take (pks.length % 256)) := by
  unfold unpack_pubkey_vector
  simp only [idxByte_cons_zero, ok_bind]
  have hflat : ((pks.map Mathlib.Vector.toList).flatten).length = 32 * pks.length :=
    flatten_toList_length pks
  rw [if_neg (by
    simp only [List.length_cons, hflat, byteOfNat_val]
    have := Nat.mod_le pks.length 256
    have h256 : pks.length % 256 ≤ pks.length := this
    have : pks.length % 256 * 32 ≤ pks.length * 32 := Nat.mul_le_mul_right 32 h256
    omega)]
  rw [byteOfNat_val,
    show (byteOfNat pks.length :: (pks.map Mathlib.Vector.toList).flatten) =
      [byteOfNat pks.length] ++ (pks.map Mathlib.Vector.toList).flatten from rfl,
    show (1 : Nat) = ([byteOfNat pks.length] : List Byte).length from rfl]
  exact readPubkeys_spec (pks.length % 256) pks _ (Nat.mod_le _ _)

/-- Legacy decoding of a packed `AddTradeStep`: the index and recipient
round-trip, and the mint list comes back truncated to `len mod 256` keys. -/
theorem addTradeStep_legacy_decode (si : Byte) (to2 : Pubkey) (ms : List Pubkey) :
    unpack (pack_legacy (.AddTradeStep si to2 ms)) =
      .ok (.AddTradeStep si to2 (ms.take (ms.length % 256))) := by
  have hb : unpack (pack_legacy (.AddTradeStep si to2 ms)) =
      unpack_legacy (pack_legacy (.AddTradeStep si to2 ms)) := by
    rw [pack_legacy, unpack]
    rw [if_neg (by simp [byteOfNat])]
  rw [hb]
  have harm : unpack_legacy (pack_legacy (.AddTradeStep si to2 ms)) =
      (idxByte (si :: (to2.toList ++ [byteOfNat ms.length] ++
          (ms.map Mathlib.Vector.toList).flatten)) 0 >>= fun step_index =>
        sliceRange (si :: (to2.toList ++ [byteOfNat ms.length] ++
          (ms.map Mathlib.Vector.toList).flatten)) 1 33 >>= fun toB =>
        pubkeyNew toB >>= fun to3 =>
        sliceFrom (si :: (to2.toList ++ [byteOfNat ms.length] ++
          (ms.map Mathlib.Vector.toList).flatten)) 33 >>= fun tl =>
        unpack_pubkey_vector tl >>= fun nft_mints =>
        .ok (.AddTradeStep step_index to3 nft_mints)) := rfl
  rw [harm]
  simp only [idxByte_cons_zero, ok_bind]
  rw [show (33 : Nat) = 32 + 1 from rfl, sliceRange_cons_succ, sliceFrom_cons_succ]
  rw [show (to2.toList ++ [byteOfNat ms.length] ++
      (ms.map Mathlib.Vector.toList).flatten) = to2.toList ++
      ([byteOfNat ms.length] ++ (ms.map Mathlib.Vector.toList).flatten) from
    List.append_assoc _ _ _]
  rw [sliceRange_zero_exact' _ _ 32 (by simp)]
  simp only [ok_bind, pubkeyNew_toList]
  rw [sliceFrom_append' _ _ 32 (by simp)]
  simp only [ok_bind, List.singleton_append, unpack_pubkey_vector_spec]

/-- The command that breaks the legacy round trip: 256 mints. -/
def c9Cmd : SwapInstruction := .AddTradeStep 0 pkA (List.replicate 256 pkB)

/-- Claim C9 counterexample: packing `AddTradeStep` with 256 mints in the
legacy format writes the count byte as `256 as u8 = 0`, so decoding returns
the command with an empty mint list, not the original command. -/
theorem codec_round_trip_counterexample :
    unpack (pack_legacy c9Cmd) ≠ .ok c9Cmd := by
  rw [show c9Cmd = .AddTradeStep 0 pkA (List.replicate 256 pkB) from rfl,
    addTradeStep_legacy_decode]
  intro h
  have h2 := Except.ok.inj h
  injection h2 with e1 e2 e3
  have hlen := congrArg List.length e3
  rw [List.length_take, List.length_replicate] at hlen
  omega

theorem idxByte_cons_at (b : Byte) (l : List Byte) (i i2 : Nat) (h : i2 = i + 1) :
    idxByte (b :: l) i2 = idxByte l i := by
  subst h
  exact idxByte_cons_succ b l i

theorem idxByte_append_at (l r : List Byte) (n i i2 : Nat) (h : l.length = n)
    (hi : i2 = n + i) : idxByte (l ++ r) i2 = idxByte r i := by
  subst h
  subst hi
  exact idxByte_append_right l r i

theorem sliceRange_cons_at (b : Byte) (l : List Byte) (a c a2 c2 : Nat)
    (ha : a2 = a + 1) (hc : c2 = c + 1) :
    sliceRange (b :: l) a2 c2 = sliceRange l a c := by
  subst ha
  subst hc
  exact sliceRange_cons_succ b l a c

theorem sliceRange_all' (l : List Byte) (n : Nat) (h : l.length = n) :
    sliceRange l 0 n = .ok l := by
  subst h
  unfold sliceRange
  rw [if_pos ⟨Nat.zero_le _, le_rfl⟩]
  simp

theorem sliceRange_append_at (l r : List Byte) (n a c a2 c2 : Nat) (h : l.length = n)
    (ha : a2 = n + a) (hc : c2 = n + c) : sliceRange (l ++ r) a2 c2 = sliceRange r a c := by
  subst h
  subst ha
  subst hc
  exact sliceRange_append_right l r a c

theorem idxByte_skip_pk (k : Pubkey) (r : List Byte) (i i2 : Nat) (h : i2 = 33 + i) :
    idxByte (byteOfNat 1 :: (k.toList ++ r)) i2 = idxByte r i := by
  subst h
  rw [idxByte_cons_at _ _ (32 + i) (33 + i) (by omega),
    idxByte_append_at _ _ 32 i (32 + i) (by simp) rfl]

theorem sliceRange_skip_pk (k : Pubkey) (r : List Byte) (a c a2 c2 : Nat)
    (ha : a2 = 33 + a) (hc : c2 = 33 + c) :
    sliceRange (byteOfNat 1 :: (k.toList ++ r)) a2 c2 = sliceRange r a c := by
  subst ha
  subst hc
  rw [sliceRange_cons_at _ _ (32 + a) (32 + c) (33 + a) (33 + c) (by omega) (by omega),
    sliceRange_append_at _ _ 32 a c (32 + a) (32 + c) (by simp) rfl rfl]

theorem read_pk_seg (k : Pubkey) (r : List Byte) :
    sliceRange (byteOfNat 1 :: (k.toList ++ r)) 1 33 = .ok k.toList := by
  rw [sliceRange_cons_at _ _ 0 32 1 33 (by decide) (by decide),
    sliceRange_zero_exact' _ _ 32 (by simp)]

theorem read_pk_seg0 (k : Pubkey) :
    sliceRange (byteOfNat 1 :: k.toList) 1 33 = .ok k.toList := by
  rw [sliceRange_cons_at _ _ 0 32 1 33 (by decide) (by decide)]
  exact sliceRange_all' _ 32 (by simp)

/-- Legacy decoding of a packed `InitializeTradeLoop`. -/
theorem initializeTradeLoop_legacy_decode (tid : Bytes32) (sc : Byte) (ts : U64) :
    unpack (pack_legacy (.InitializeTradeLoop tid sc ts)) =
      .ok (.InitializeTradeLoop tid sc ts) := by
  have hb : unpack (pack_legacy (.InitializeTradeLoop tid sc ts)) =
      unpack_legacy (pack_legacy (.InitializeTradeLoop tid sc ts)) := by
    rw [pack_legacy, unpack, if_neg (by simp [byteOfNat])]
  rw [hb]
  have harm : unpack_legacy (pack_legacy (.InitializeTradeLoop tid sc ts)) =
      (sliceRange (tid.toList ++ [sc] ++ natToLE 8 ts.val) 0 32 >>= fun tidB =>
       toBytes32 tidB >>= fun tid2 =>
       idxByte (tid.toList ++ [sc] ++ natToLE 8 ts.val) 32 >>= fun sc2 =>
       sliceRange (tid.toList ++ [sc] ++ natToLE 8 ts.val) 33 41 >>= fun tsB =>
       u64FromLE tsB >>= fun ts2 =>
       .ok (.InitializeTradeLoop tid2 sc2 ts2)) := rfl
  rw [harm, List.append_assoc]
  rw [sliceRange_zero_exact' _ _ 32 (by simp)]
  simp only [ok_bind, toBytes32_toList]
  rw [idxByte_append_at _ _ 32 0 32 (by simp) (by decide), List.singleton_append,
    idxByte_cons_zero]
  simp only [ok_bind]
  rw [sliceRange_append_at _ _ 32 1 9 33 41 (by simp) (by decide) (by decide),
    sliceRange_cons_at _ _ 0 8 1 9 (by decide) (by decide),
    sliceRange_all' _ 8 (natToLE_length 8 ts.val)]
  simp only [ok_bind, u64FromLE_natToLE]


/-- Legacy decoding of the small packed commands. -/
theorem approveTradeStep_legacy_decode (si : Byte) :
    unpack (pack_legacy (.ApproveTradeStep si)) = .ok (.ApproveTradeStep si) := by
  have hb : unpack (pack_legacy (.ApproveTradeStep si)) =
      unpack_legacy (pack_legacy (.ApproveTradeStep si)) := by
    rw [pack_legacy, unpack, if_neg (by simp [byteOfNat])]
  rw [hb]
  have harm : unpack_legacy (pack_legacy (.ApproveTradeStep si)) =
      (idxByte [si] 0 >>= fun si2 => .ok (.ApproveTradeStep si2)) := rfl
  rw [harm, idxByte_cons_zero]
  rfl

theorem executeTradeStep_legacy_decode (si : Byte) :
    unpack (pack_legacy (.ExecuteTradeStep si)) = .ok (.ExecuteTradeStep si) := by
  have hb : unpack (pack_legacy (.ExecuteTradeStep si)) =
      unpack_legacy (pack_legacy (.ExecuteTradeStep si)) := by
    rw [pack_legacy, unpack, if_neg (fun h => absurd h.2 (by decide))]
  rw [hb]
  have harm : unpack_legacy (pack_legacy (.ExecuteTradeStep si)) =
      (idxByte [si] 0 >>= fun si2 => .ok (.ExecuteTradeStep si2)) := rfl
  rw [harm, idxByte_cons_zero]
  rfl

theorem upgradeProgram_legacy_decode (v : U32) :
    unpack (pack_legacy (.UpgradeProgram v)) = .ok (.UpgradeProgram v) := by
  have hb : unpack (pack_legacy (.UpgradeProgram v)) =
      unpack_legacy (pack_legacy (.UpgradeProgram v)) := by
    rw [pack_legacy, unpack, if_neg (fun h => absurd h.2 (by decide))]
  rw [hb]
  have harm : unpack_legacy (pack_legacy (.UpgradeProgram v)) =
      (sliceRange (natToLE 4 v.val) 0 4 >>= fun vB =>
       u32FromLE vB >>= fun v2 => .ok (.UpgradeProgram v2)) := rfl
  rw [harm, sliceRange_all' _ 4 (natToLE_length 4 v.val)]
  simp only [ok_bind, u32FromLE_natToLE]

theorem initializeProgramConfig_legacy_decode (g : Option Pubkey) :
    unpack (pack_legacy (.InitializeProgramConfig g)) =
      .ok (.InitializeProgramConfig g) := by
  cases g with
  | none => decide
  | some k =>
      have hb : unpack (pack_legacy (.InitializeProgramConfig (some k))) =
          unpack_legacy (pack_legacy (.InitializeProgramConfig (some k))) := by
        rw [pack_legacy, unpack]
        rw [if_neg (fun h => absurd h.2 (by decide))]
      rw [hb]
      have harm : unpack_legacy (pack_legacy (.InitializeProgramConfig (some k))) =
          (idxByte (byteOfNat 1 :: k.toList) 0 >>= fun hasGov =>
           if hasGov.val ≠ 0 then
             sliceRange (byteOfNat 1 :: k.toList) 1 33 >>= fun gB =>
             pubkeyNew gB >>= fun g2 =>
             .ok (.InitializeProgramConfig (some g2))
           else .ok (.InitializeProgramConfig none)) := rfl
      rw [harm, idxByte_cons_zero, ok_bind, if_pos (by decide : (byteOfNat 1).val ≠ 0),
        read_pk_seg0]
      simp only [ok_bind, pubkeyNew_toList]


/-- Legacy decoding of a packed `UpdateProgramConfig`: the three optional
fields round-trip through the offset-accumulating parse. -/
theorem updateProgramConfig_legacy_decode (a g : Option Pubkey) (p : Option Bool) :
    unpack (pack_legacy (.UpdateProgramConfig a g p)) =
      .ok (.UpdateProgramConfig a g p) := by
  have hb : unpack (pack_legacy (.UpdateProgramConfig a g p)) =
      unpack_legacy (pack_legacy (.UpdateProgramConfig a g p)) := by
    rw [pack_legacy, unpack, if_neg (fun h => absurd h.2 (by decide))]
  rw [hb]
  have harm : ∀ rest : List Byte, unpack_legacy (byteOfNat 8 :: rest) =
      (idxByte rest 0 >>= fun hasAuth =>
       (if hasAuth.val ≠ 0 then
          sliceRange rest 1 33 >>= fun aB => pubkeyNew aB >>= fun a2 =>
            (.ok (some a2, 33) : Except DecodeFailure (Option Pubkey × Nat))
        else .ok (none, 1)) >>= fun ao =>
       idxByte rest ao.2 >>= fun hasGov =>
       (if hasGov.val ≠ 0 then
          sliceRange rest (ao.2 + 1) (ao.2 + 33) >>= fun gB =>
            pubkeyNew gB >>= fun g2 =>
            (.ok (some g2, ao.2 + 33) : Except DecodeFailure (Option Pubkey × Nat))
        else .ok (none, ao.2 + 1)) >>= fun go =>
       idxByte rest go.2 >>= fun hasPaused =>
       (if hasPaused.val ≠ 0 then
          idxByte rest (go.2 + 1) >>= fun pB =>
            (.ok (some (pB.val ≠ 0)) : Except DecodeFailure (Option Bool))
        else .ok none) >>= fun po =>
       .ok (.UpdateProgramConfig ao.1 go.1 po)) := fun _ => rfl
  rcases a with _ | ka <;> rcases g with _ | kg <;> rcases p with _ | pb
  · decide
  · cases pb <;> decide
  · simp only [pack_legacy, serOptPubkey, serOptBool, List.cons_append,
      List.append_assoc, List.singleton_append, List.nil_append]
    rw [harm]
    rw [idxByte_cons_zero, ok_bind, if_neg (by decide : ¬(byteOfNat 0).val ≠ 0), ok_bind]
    rw [idxByte_cons_at _ _ 0 1 (by decide), idxByte_cons_zero, ok_bind,
      if_pos (by decide : (byteOfNat 1).val ≠ 0)]
    rw [sliceRange_cons_at _ _ 1 33 (1 + 1) (1 + 33) rfl (by omega),
      read_pk_seg kg _]
    simp only [ok_bind, pubkeyNew_toList]
    rw [idxByte_cons_at _ _ 33 (1 + 33) (by omega), idxByte_skip_pk kg _ 0 33 (by decide),
      idxByte_cons_zero, ok_bind, if_neg (by decide : ¬(byteOfNat 0).val ≠ 0), ok_bind]
  · simp only [pack_legacy, serOptPubkey, serOptBool, List.cons_append,
      List.append_assoc, List.singleton_append, List.nil_append]
    rw [harm]
    rw [idxByte_cons_zero, ok_bind, if_neg (by decide : ¬(byteOfNat 0).val ≠ 0), ok_bind]
    rw [idxByte_cons_at _ _ 0 1 (by decide), idxByte_cons_zero, ok_bind,
      if_pos (by decide : (byteOfNat 1).val ≠ 0)]
    rw [sliceRange_cons_at _ _ 1 33 (1 + 1) (1 + 33) rfl (by omega),
      read_pk_seg kg _]
    simp only [ok_bind, pubkeyNew_toList]
    rw [idxByte_cons_at _ _ 33 (1 + 33) (by omega), idxByte_skip_pk kg _ 0 33 (by decide),
      idxByte_cons_zero, ok_bind, if_pos (by decide : (byteOfNat 1).val ≠ 0)]
    rw [idxByte_cons_at _ _ (33 + 1) (1 + 33 + 1) (by omega),
      idxByte_skip_pk kg _ 1 (33 + 1) rfl, idxByte_cons_at _ _ 0 1 (by decide),
      idxByte_cons_zero]
    simp only [ok_bind]
    cases pb <;> rfl
  · simp only [pack_legacy, serOptPubkey, serOptBool, List.cons_append,
      List.append_assoc, List.singleton_append, List.nil_append]
    rw [harm]
    rw [idxByte_cons_zero, ok_bind, if_pos (by decide : (byteOfNat 1).val ≠ 0),
      read_pk_seg ka _]
    simp only [ok_bind, pubkeyNew_toList]
    rw [idxByte_skip_pk ka _ 0 33 (by decide), idxByte_cons_zero, ok_bind,
      if_neg (by decide : ¬(byteOfNat 0).val ≠ 0), ok_bind]
    rw [idxByte_skip_pk ka _ 1 (33 + 1) rfl, idxByte_cons_at _ _ 0 1 (by decide),
      idxByte_cons_zero, ok_bind, if_neg (by decide : ¬(byteOfNat 0).val ≠ 0), ok_bind]
  · simp only [pack_legacy, serOptPubkey, serOptBool, List.cons_append,
      List.append_assoc, List.singleton_append, List.nil_append]
    rw [harm]
    rw [idxByte_cons_zero, ok_bind, if_pos (by decide : (byteOfNat 1).val ≠ 0),
      read_pk_seg ka _]
    simp only [ok_bind, pubkeyNew_toList]
    rw [idxByte_skip_pk ka _ 0 33 (by decide), idxByte_cons_zero, ok_bind,
      if_neg (by decide : ¬(byteOfNat 0).val ≠ 0), ok_bind]
    rw [idxByte_skip_pk ka _ 1 (33 + 1) rfl, idxByte_cons_at _ _ 0 1 (by decide),
      idxByte_cons_zero, ok_bind, if_pos (by decide : (byteOfNat 1).val ≠ 0)]
    rw [idxByte_skip_pk ka _ 2 (33 + 1 + 1) (by omega),
      idxByte_cons_at _ _ 1 2 (by decide), idxByte_cons_at _ _ 0 1 (by decide),
      idxByte_cons_zero]
    simp only [ok_bind]
    cases pb <;> rfl
  · simp only [pack_legacy, serOptPubkey, serOptBool, List.cons_append,
      List.append_assoc, List.singleton_append, List.nil_append]
    rw [harm]
    rw [idxByte_cons_zero, ok_bind, if_pos (by decide : (byteOfNat 1).val ≠ 0),
      read_pk_seg ka _]
    simp only [ok_bind, pubkeyNew_toList]
    rw [idxByte_skip_pk ka _ 0 33 (by decide), idxByte_cons_zero, ok_bind,
      if_pos (by decide : (byteOfNat 1).val ≠ 0)]
    rw [sliceRange_skip_pk ka _ 1 33 (33 + 1) (33 + 33) rfl rfl, read_pk_seg kg _]
    simp only [ok_bind, pubkeyNew_toList]
    rw [idxByte_skip_pk ka _ 33 (33 + 33) rfl, idxByte_skip_pk kg _ 0 33 (by decide),
      idxByte_cons_zero, ok_bind, if_neg (by decide : ¬(byteOfNat 0).val ≠ 0), ok_bind]
  · simp only [pack_legacy, serOptPubkey, serOptBool, List.cons_append,
      List.append_assoc, List.singleton_append, List.nil_append]
    rw [harm]
    rw [idxByte_cons_zero, ok_bind, if_pos (by decide : (byteOfNat 1).val ≠ 0),
      read_pk_seg ka _]
    simp only [ok_bind, pubkeyNew_toList]
    rw [idxByte_skip_pk ka _ 0 33 (by decide), idxByte_cons_zero, ok_bind,
      if_pos (by decide : (byteOfNat 1).val ≠ 0)]
    rw [sliceRange_skip_pk ka _ 1 33 (33 + 1) (33 + 33) rfl rfl, read_pk_seg kg _]
    simp only [ok_bind, pubkeyNew_toList]
    rw [idxByte_skip_pk ka _ 33 (33 + 33) rfl, idxByte_skip_pk kg _ 0 33 (by decide),
      idxByte_cons_zero, ok_bind, if_pos (by decide : (byteOfNat 1).val ≠ 0)]
    rw [idxByte_skip_pk ka _ (33 + 1) (33 + 33 + 1) (by omega),
      idxByte_skip_pk kg _ 1 (33 + 1) rfl, idxByte_cons_at _ _ 0 1 (by decide),
      idxByte_cons_zero]
    simp only [ok_bind]
    cases pb <;> rfl


theorem deByte_cons (b : Byte) (r : List Byte) : deByte (b :: r) = some (b, r) := rfl

theorem dePubkey_toList_append (k : Pubkey) (r : List Byte) :
    dePubkey (k.toList ++ r) = some (k, r) := by
  obtain ⟨l, hl⟩ := k
  have ht : (l ++ r).take 32 = l := List.take_left' hl
  have hd : (l ++ r).drop 32 = r := List.drop_left' hl
  unfold dePubkey
  rw [dif_pos (by simp [Mathlib.Vector.toList, hl])]
  simp [Mathlib.Vector.toList, ht, hd]

theorem deU64_ser (n : U64) (r : List Byte) :
    deU64 (natToLE 8 n.val ++ r) = some (n, r) := by
  have hlen : (natToLE 8 n.val).length = 8 := natToLE_length 8 n.val
  have ht : (natToLE 8 n.val ++ r).take 8 = natToLE 8 n.val := List.take_left' hlen
  have hd : (natToLE 8 n.val ++ r).drop 8 = r := List.drop_left' hlen
  unfold deU64
  rw [dif_pos (by simp [hlen])]
  simp only [ht, hd, Option.some.injEq, Prod.mk.injEq]
  refine ⟨Fin.ext ?_, trivial⟩
  simp only [leToNat_natToLE]
  exact Nat.mod_eq_of_lt (lt_of_lt_of_le n.isLt (by norm_num))

theorem deU32_ser (n : U32) (r : List Byte) :
    deU32 (natToLE 4 n.val ++ r) = some (n, r) := by
  have hlen : (natToLE 4 n.val).length = 4 := natToLE_length 4 n.val
  have ht : (natToLE 4 n.val ++ r).take 4 = natToLE 4 n.val := List.take_left' hlen
  have hd : (natToLE 4 n.val ++ r).drop 4 = r := List.drop_left' hlen
  unfold deU32
  rw [dif_pos (by simp [hlen])]
  simp only [ht, hd, Option.some.injEq, Prod.mk.injEq]
  refine ⟨Fin.ext ?_, trivial⟩
  simp only [leToNat_natToLE]
  exact Nat.mod_eq_of_lt (lt_of_lt_of_le n.isLt (by norm_num))

theorem deBool_ser (b : Bool) (r : List Byte) :
    deBool ((if b then byteOfNat 1 else byteOfNat 0) :: r) = some (b, r) := by
  cases b <;> simp [deBool, byteOfNat]

theorem deOptPubkey_ser (g : Option Pubkey) (r : List Byte) :
    deOptPubkey (serOptPubkey g ++ r) = some (g, r) := by
  cases g with
  | none => simp [serOptPubkey, deOptPubkey, deByte, byteOfNat]
  | some k =>
      simp [serOptPubkey, deOptPubkey, deByte, byteOfNat, dePubkey_toList_append]

theorem deOptBool_ser (p : Option Bool) (r : List Byte) :
    deOptBool (serOptBool p ++ r) = some (p, r) := by
  cases p with
  | none => simp [serOptBool, deOptBool, deByte, byteOfNat]
  | some b =>
      cases b <;> simp [serOptBool, deOptBool, deByte, byteOfNat, deBool]

theorem dePubkeyList_ser (pks : List Pubkey) (r : List Byte) :
    dePubkeyList pks.length ((pks.map Mathlib.Vector.toList).flatten ++ r) =
      some (pks, r) := by
  induction pks generalizing r with
  | nil => simp [dePubkeyList]
  | cons p ps ih =>
      simp only [List.map_cons, List.flatten_cons, List.length_cons, List.append_assoc]
      simp [dePubkeyList, dePubkey_toList_append, ih]

theorem deVecPubkey_ser (pks : List Pubkey) (r : List Byte) (h : pks.length < 2 ^ 32) :
    deVecPubkey (natToLE 4 pks.length ++
      ((pks.map Mathlib.Vector.toList).flatten ++ r)) = some (pks, r) := by
  unfold deVecPubkey
  have h32 := deU32_ser ⟨pks.length, h⟩ ((pks.map Mathlib.Vector.toList).flatten ++ r)
  simp only [show ((⟨pks.length, h⟩ : U32) : Nat) = pks.length from rfl] at h32
  simp [h32, dePubkeyList_ser]


/-- Borsh decoding inverts Borsh encoding for every serializable command,
leaving the tail untouched. -/
theorem deInstr_ser (c : SwapInstruction) (h : instrSerializable c = true)
    (r : List Byte) : deInstr (serInstr c ++ r) = some (c, r) := by
  cases c with
  | InitializeTradeLoop tid sc ts =>
      simp only [serInstr, List.cons_append, List.append_assoc]
      simp [deInstr, deByte, byteOfNat, dePubkey_toList_append, deU64_ser]
  | AddTradeStep si to2 ms =>
      have hms : ms.length < 2 ^ 32 := by simpa [instrSerializable] using h
      simp only [serInstr, List.cons_append, List.append_assoc]
      simp [deInstr, deByte, byteOfNat, dePubkey_toList_append,
        deVecPubkey_ser ms r hms]
  | ApproveTradeStep si =>
      simp [serInstr, deInstr, deByte, byteOfNat]
  | ExecuteTradeStep si =>
      simp [serInstr, deInstr, deByte, byteOfNat]
  | ExecuteFullTradeLoop =>
      simp [serInstr, deInstr, deByte, byteOfNat]
  | CancelTradeLoop =>
      simp [serInstr, deInstr, deByte, byteOfNat]
  | InitializeProgramConfig g =>
      simp only [serInstr, List.cons_append, List.append_assoc]
      simp [deInstr, deByte, byteOfNat, deOptPubkey_ser]
  | UpdateProgramConfig a g p =>
      simp only [serInstr, List.cons_append, List.append_assoc]
      simp [deInstr, deByte, byteOfNat, deOptPubkey_ser, deOptBool_ser]
  | UpgradeProgram v =>
      simp only [serInstr, List.cons_append, List.append_assoc]
      simp [deInstr, deByte, byteOfNat, deU32_ser]

/-- Versioned round trip: whenever Borsh packing succeeds, decoding restores
the command. -/
theorem unpack_pack_versioned (c : SwapInstruction) (bs : List Byte)
    (h : pack_versioned c = .ok bs) : unpack bs = .ok c := by
  unfold pack_versioned at h
  split_ifs at h with hwf
  injection h with h
  subst h
  rw [unpack]
  rw [if_pos ⟨by simp, by decide⟩]
  unfold unpack_versioned deVersioned
  have hd : deInstr (serInstr c ++ []) = some (c, []) := deInstr_ser c hwf []
  rw [List.append_nil] at hd
  simp [deByte, byteOfNat, hd]

/-- A command the legacy format can represent faithfully: the mint count of
`AddTradeStep` must fit the single `len() as u8` count byte. -/
def legacyWf : SwapInstruction → Bool
  | .AddTradeStep _ _ nft_mints => decide (nft_mints.length < 256)
  | _ => true

/-- Claim C9 (amended): decoding inverts encoding for every command in the
versioned format (whenever Borsh packing succeeds, in particular for every
mint list shorter than 2^32), and in the legacy format for every command
whose mint count fits the single legacy count byte (fewer than 256 mints;
the counterexample shows 256 mints break it). -/
theorem codec_round_trip :
    (∀ c, legacyWf c = true → unpack (pack_legacy c) = .ok c) ∧
    (∀ c bs, pack_versioned c = .ok bs → unpack bs = .ok c) := by
  constructor
  · intro c hwf
    cases c with
    | InitializeTradeLoop tid sc ts => exact initializeTradeLoop_legacy_decode tid sc ts
    | AddTradeStep si to2 ms =>
        have hlt : ms.length < 256 := by simpa [legacyWf] using hwf
        rw [addTradeStep_legacy_decode si to2 ms, Nat.mod_eq_of_lt hlt, List.take_length]
    | ApproveTradeStep si => exact approveTradeStep_legacy_decode si
    | ExecuteTradeStep si => exact executeTradeStep_legacy_decode si
    | ExecuteFullTradeLoop => decide
    | CancelTradeLoop => decide
    | InitializeProgramConfig g => exact initializeProgramConfig_legacy_decode g
    | UpdateProgramConfig a g p => exact updateProgramConfig_legacy_decode a g p
    | UpgradeProgram v => exact upgradeProgram_legacy_decode v
  · intro c bs h
    exact unpack_pack_versioned c bs h

/-- Witness for the amended C9 on concrete commands in both formats. -/
theorem codec_round_trip_witness :
    unpack (pack_legacy (.AddTradeStep (byteOfNat 0) pkA [pkB])) =
      .ok (.AddTradeStep (byteOfNat 0) pkA [pkB]) ∧
    ∃ bs, pack_versioned (.AddTradeStep (byteOfNat 0) pkA [pkB]) = .ok bs ∧
      unpack bs = .ok (.AddTradeStep (byteOfNat 0) pkA [pkB]) := by
  refine ⟨codec_round_trip.1 _ (by decide), ?_⟩
  exact ⟨byteOfNat 255 :: byteOfNat 1 :: serInstr (.AddTradeStep (byteOfNat 0) pkA [pkB]),
    by decide, codec_round_trip.2 _ _ (by decide)⟩


end Swaps
